import Mathlib

/-!
Verification of the log-indexing and aggregation core of claude-run
(`src/api/storage.ts`, `src/api/pricing.ts`) against its specification.

Modelling conventions:
* A log file's content is a `List Char`, one `Char` per byte (the logs are
  UTF-8; all byte-offset arithmetic in the source uses `Buffer.byteLength`,
  which for the ASCII test data used here coincides with the character count,
  and the embedding treats each list element as one byte).
* `JSON.parse` applied to a single log line is modelled by an oracle
  `parse : List Char → Option ConversationMessage` carried in the environment
  (`StorageEnv`): `none` models a thrown exception, `some m` a successfully
  parsed message.  Theorems that need properties of real `JSON.parse` state
  them as explicit hypotheses (whitespace-insensitivity; the empty string
  does not parse).
* JavaScript `number` arithmetic on costs is modelled over `ℚ` (exact
  rationals); token counts are `Nat`, timestamps are `Int` milliseconds.
* ISO timestamp strings constructed by `toISOString` and immediately
  re-parsed by `new Date(...)` are modelled by their epoch-millisecond
  values; the `YYYY-MM-DD` date keys of the aggregation are modelled as
  real strings via a faithful civil-calendar conversion (`msToDateString`),
  matching `toISOString().split("T")[0]` for a UTC environment.
-/

set_option maxRecDepth 4000

namespace ClaudeRun

/-! ## Characters, whitespace, lines -/

/-- The whitespace characters relevant to the log format (JS `trim` removes a
larger set; the logs only contain these). -/
def isWS (c : Char) : Bool := c == ' ' || c == '\n' || c == '\t' || c == '\r'

/-- Left trim: `String.prototype.trim`'s action on the leading edge. -/
def ltrimL (l : List Char) : List Char := l.dropWhile isWS

/-- Right trim: `String.prototype.trim`'s action on the trailing edge. -/
def rtrimL (l : List Char) : List Char := (l.reverse.dropWhile isWS).reverse

/-- `String.prototype.trim`. -/
def trimL (l : List Char) : List Char := ltrimL (rtrimL l)

/-- `readline` line splitting (with `crlfDelay: Infinity`): lines are yielded
without their terminator, a final line without a trailing newline is still
yielded, and a file ending in `\n` does not yield a trailing empty line. -/
def splitLines : List Char → List (List Char)
  | [] => []
  | c :: cs =>
    if c = '\n' then [] :: splitLines cs
    else
      match splitLines cs with
      | [] => [[c]]
      | l :: ls => (c :: l) :: ls

/-- JavaScript `String.prototype.split("\n")`: always at least one segment,
and a trailing newline produces a trailing empty segment. -/
def splitOnNl : List Char → List (List Char)
  | [] => [[]]
  | c :: cs =>
    if c = '\n' then [] :: splitOnNl cs
    else
      match splitOnNl cs with
      | [] => [[c]]
      | l :: ls => (c :: l) :: ls

/-- Join lines, terminating each with a newline. -/
def joinNl : List (List Char) → List Char
  | [] => []
  | l :: ls => l ++ '\n' :: joinNl ls

/-- Total byte count of a list of lines as the incremental reader charges
them: `Buffer.byteLength(line) + 1` per line. -/
def sumBytes : List (List Char) → Nat
  | [] => 0
  | l :: ls => (l.length + 1) + sumBytes ls

/-- Apply a function to the last line of a list (proof device relating the
two line-splitting functions under a trailing character). -/
def modLast (f : List Char → List Char) : List (List Char) → List (List Char)
  | [] => []
  | [l] => [f l]
  | l :: ls => l :: modLast f ls

/-! ## Data model (`storage.ts` interfaces) -/

structure TokenUsage where
  input_tokens : Nat
  output_tokens : Nat
  cache_creation_input_tokens : Option Nat
  cache_read_input_tokens : Option Nat
deriving DecidableEq

/-- The `message` field of a log record.  The `content` payload (display
text) is not consumed by any of the verified operations and is outside the
parse oracle's image, so it is not carried. -/
structure MessageBody where
  role : String
  model : Option String
  usage : Option TokenUsage
deriving DecidableEq

structure ConversationMessage where
  type : String
  uuid : Option String
  timestamp : Option String
  message : Option MessageBody
  summary : Option String
deriving DecidableEq

structure StreamResult where
  messages : List ConversationMessage
  nextOffset : Nat
deriving DecidableEq

structure HistoryEntry where
  display : String
  timestamp : Int
  project : String
  sessionId : Option String
deriving DecidableEq

structure Session where
  id : String
  display : String
  timestamp : Int
  project : String
  projectName : String
deriving DecidableEq

structure SessionUsage where
  sessionId : String
  display : String
  project : String
  projectName : String
  totalInputTokens : Nat
  totalOutputTokens : Nat
  cacheCreationTokens : Nat
  cacheReadTokens : Nat
  messageCount : Nat
  model : String
  estimatedCost : ℚ
  firstMessageAt : Option String
  lastMessageAt : Option String
deriving DecidableEq

/-! ## Small JS-semantics helpers -/

/-- `opt || dflt` for an optional string (the empty string is falsy). -/
def jsOrStr (s : Option String) (d : String) : String :=
  match s with
  | some v => if v = "" then d else v
  | none => d

/-- Association-list lookup (JS object / `Map.get`). -/
def alookup {α : Type} : List (String × α) → String → Option α
  | [], _ => none
  | (k, v) :: rest, key => if k = key then some v else alookup rest key

/-- `Map.prototype.set`: overwrite in place if present, else append. -/
def mapSet {α : Type} : List (String × α) → String → α → List (String × α)
  | [], key, v => [(key, v)]
  | (k, w) :: rest, key, v =>
    if k = key then (key, v) :: rest else (k, w) :: mapSet rest key v

/-- `map.get(k) || dflt`. -/
def getOrA {α : Type} (m : List (String × α)) (key : String) (d : α) : α :=
  match alookup m key with
  | some v => v
  | none => d

/-- `Map.prototype.delete` (keys are inserted at most once). -/
def eraseKey {α : Type} : List (String × α) → String → List (String × α)
  | [], _ => []
  | (k, v) :: rest, key => if k = key then rest else (k, v) :: eraseKey rest key

/-- `pat` is a leading run of `s`. -/
def leadsWith : List Char → List Char → Bool
  | [], _ => true
  | _ :: _, [] => false
  | p :: ps, c :: cs => p == c && leadsWith ps cs

/-- `s.includes(pat)` on character lists. -/
def hasSubL : List Char → List Char → Bool
  | [], pat => pat.isEmpty
  | s@(_ :: cs), pat => leadsWith pat s || hasSubL cs pat

/-- `s.endsWith(pat)`. -/
def trailsWith (s pat : List Char) : Bool := leadsWith pat.reverse s.reverse

/-- ASCII lower-casing, `String.prototype.toLowerCase` on the model-id
alphabet. -/
def chLower (c : Char) : Char :=
  if 65 ≤ c.toNat ∧ c.toNat ≤ 90 then Char.ofNat (c.toNat + 32) else c

def lowerL (s : List Char) : List Char := s.map chLower

def isDigit (c : Char) : Bool := decide (48 ≤ c.toNat ∧ c.toNat ≤ 57)

/-! ## Pricing resolver (`pricing.ts`) -/

structure ModelPricing where
  inputPerMillion : ℚ
  outputPerMillion : ℚ
  cacheWriteMultiplier : ℚ
  cacheReadMultiplier : ℚ
deriving DecidableEq

def opus45Pricing : ModelPricing := ⟨5, 25, 5/4, 1/10⟩
def opus4Pricing : ModelPricing := ⟨15, 75, 5/4, 1/10⟩
def sonnet45Pricing : ModelPricing := ⟨3, 15, 5/4, 1/10⟩
def sonnet4Pricing : ModelPricing := ⟨3, 15, 5/4, 1/10⟩
def haiku45Pricing : ModelPricing := ⟨1, 5, 5/4, 1/10⟩
def haiku35Pricing : ModelPricing := ⟨4/5, 4, 5/4, 1/10⟩
def haiku3Pricing : ModelPricing := ⟨1/4, 5/4, 5/4, 1/10⟩
def sonnet35v2Pricing : ModelPricing := ⟨3, 15, 5/4, 1/10⟩
def sonnet35v1Pricing : ModelPricing := ⟨3, 15, 5/4, 1/10⟩

def MODEL_PRICING : List (String × ModelPricing) :=
  [("claude-opus-4-5-20251101", opus45Pricing),
   ("claude-opus-4-20250514", opus4Pricing),
   ("claude-sonnet-4-5-20241022", sonnet45Pricing),
   ("claude-sonnet-4-20250514", sonnet4Pricing),
   ("claude-haiku-4-5-20251101", haiku45Pricing),
   ("claude-3-5-haiku-20241022", haiku35Pricing),
   ("claude-3-haiku-20240307", haiku3Pricing),
   ("claude-3-5-sonnet-20241022", sonnet35v2Pricing),
   ("claude-3-5-sonnet-20240620", sonnet35v1Pricing)]

def DEFAULT_PRICING : ModelPricing := ⟨3, 15, 5/4, 1/10⟩

/-- `getModelPricing`: exact table match first, then the ordered family
heuristics, then the default tier.  An absent or empty (falsy) id returns
the default immediately. -/
def getModelPricing (model : Option String) : ModelPricing :=
  match model with
  | none => DEFAULT_PRICING
  | some m =>
    if m = "" then DEFAULT_PRICING
    else
      match alookup MODEL_PRICING m with
      | some p => p
      | none =>
        let ml := lowerL m.data
        if hasSubL ml "opus-4-5".data || hasSubL ml "opus-4.5".data then
          opus45Pricing
        else if hasSubL ml "opus-4".data || hasSubL ml "opus4".data then
          opus4Pricing
        else if hasSubL ml "sonnet-4-5".data || hasSubL ml "sonnet-4.5".data then
          sonnet45Pricing
        else if hasSubL ml "sonnet-4".data || hasSubL ml "sonnet4".data then
          sonnet4Pricing
        else if hasSubL ml "haiku-4-5".data || hasSubL ml "haiku-4.5".data then
          haiku45Pricing
        else if hasSubL ml "haiku-3-5".data || hasSubL ml "haiku-3.5".data then
          haiku35Pricing
        else if hasSubL ml "haiku".data then
          haiku3Pricing
        else if hasSubL ml "sonnet-3-5".data || hasSubL ml "sonnet-3.5".data then
          sonnet35v2Pricing
        else if hasSubL ml "sonnet".data then
          sonnet4Pricing
        else DEFAULT_PRICING

/-- `calculateCost`: the four per-million-priced components.  The cache
fields use JS truthiness (`x ? e : 0`), so an absent or zero count
contributes zero. -/
def calculateCost (usage : TokenUsage) (model : Option String) : ℚ :=
  let pricing := getModelPricing model
  let inputCost := (usage.input_tokens : ℚ) / 1000000 * pricing.inputPerMillion
  let outputCost := (usage.output_tokens : ℚ) / 1000000 * pricing.outputPerMillion
  let cacheWriteCost :=
    match usage.cache_creation_input_tokens with
    | some n =>
      if n ≠ 0 then
        (n : ℚ) / 1000000 * pricing.inputPerMillion * pricing.cacheWriteMultiplier
      else 0
    | none => 0
  let cacheReadCost :=
    match usage.cache_read_input_tokens with
    | some n =>
      if n ≠ 0 then
        (n : ℚ) / 1000000 * pricing.inputPerMillion * pricing.cacheReadMultiplier
      else 0
    | none => 0
  inputCost + outputCost + cacheWriteCost + cacheReadCost

/-- Strip a leading run if present (`replace(/^pat/, "")` for a literal). -/
def dropLeading (pat s : List Char) : List Char :=
  if leadsWith pat s then s.drop pat.length else s

/-- Strip a trailing hyphen-plus-8-digit date (the `-\d{8}$` replacement). -/
def stripDateSuffix (s : List Char) : List Char :=
  let r := s.reverse
  if 9 ≤ r.length ∧ (r.take 8).all isDigit = true ∧ (r.drop 8).headI = '-' then
    (r.drop 9).reverse
  else s

/-- `getModelDisplayName`. -/
def getModelDisplayName (model : Option String) : String :=
  match model with
  | none => "Unknown"
  | some m =>
    if m = "" then "Unknown"
    else
      let ml := lowerL m.data
      if hasSubL ml "opus-4-5".data || hasSubL ml "opus-4.5".data then "Opus 4.5"
      else if hasSubL ml "opus-4".data || hasSubL ml "opus4".data then "Opus 4"
      else if hasSubL ml "sonnet-4-5".data || hasSubL ml "sonnet-4.5".data then "Sonnet 4.5"
      else if hasSubL ml "sonnet-4".data || hasSubL ml "sonnet4".data then "Sonnet 4"
      else if hasSubL ml "haiku-4-5".data || hasSubL ml "haiku-4.5".data then "Haiku 4.5"
      else if hasSubL ml "haiku-3-5".data || hasSubL ml "haiku-3.5".data then "Haiku 3.5"
      else if hasSubL ml "haiku".data then "Haiku 3"
      else if hasSubL ml "sonnet-3-5".data || hasSubL ml "sonnet-3.5".data then "Sonnet 3.5"
      else if hasSubL ml "sonnet".data then "Sonnet"
      else if hasSubL ml "opus".data then "Opus"
      else String.mk (stripDateSuffix (dropLeading "claude-".data m.data))

/-! ## Conversation store core (`getConversation` / `getConversationStream`) -/

/-- One step of `getConversation`'s line loop: `user`/`assistant` messages
are pushed, a `summary` is unshifted to the front, anything else (including
a parse failure) is skipped. -/
def convStep (parse : List Char → Option ConversationMessage)
    (msgs : List ConversationMessage) (line : List Char) : List ConversationMessage :=
  match parse line with
  | some m =>
    if m.type = "user" ∨ m.type = "assistant" then msgs ++ [m]
    else if m.type = "summary" then m :: msgs
    else msgs
  | none => msgs

def conversationOfLines (parse : List Char → Option ConversationMessage)
    (lines : List (List Char)) : List ConversationMessage :=
  lines.foldl (convStep parse) []

/-- Full read of a file's content:
`content.trim().split("\n").filter(Boolean)` then the line loop. -/
def conversationFromContent (parse : List Char → Option ConversationMessage)
    (content : List Char) : List ConversationMessage :=
  conversationOfLines parse ((splitOnNl (trimL content)).filter (fun l => l ≠ []))

/-- The incremental reader's line loop: blank lines advance the offset,
parsed lines advance the offset and contribute their `user`/`assistant`
message, and the first non-blank line that fails to parse breaks the loop.
Returns (messages, bytesConsumed). -/
def consumeLines (parse : List Char → Option ConversationMessage) :
    List (List Char) → List ConversationMessage × Nat
  | [] => ([], 0)
  | l :: ls =>
    if trimL l = [] then
      let r := consumeLines parse ls
      (r.1, (l.length + 1) + r.2)
    else
      match parse l with
      | some m =>
        let r := consumeLines parse ls
        ((if m.type = "user" ∨ m.type = "assistant" then [m] else []) ++ r.1,
         (l.length + 1) + r.2)
      | none => ([], 0)

/-- `getConversationStream`'s body once the file content is in hand: the
early return at or past EOF, the tail read from `fromOffset`, and the final
clamp of the advanced offset to the file size. -/
def streamFromContent (parse : List Char → Option ConversationMessage)
    (content : List Char) (fromOffset : Nat) : StreamResult :=
  let fileSize := content.length
  if fileSize ≤ fromOffset then ⟨[], fromOffset⟩
  else
    let r := consumeLines parse (splitLines (content.drop fromOffset))
    let actualOffset := fromOffset + r.2
    ⟨r.1, if fileSize < actualOffset then fileSize else actualOffset⟩

/-- The environment a conversation read runs against: the Session Index's
resolution (`findSessionFile`), the filesystem read (`stat` + `readFile` /
`createReadStream`, with `Except.error` one unexpected I/O failure), the
`JSON.parse` oracle and the Session Directory's output (`getSessions`). -/
structure StorageEnv where
  fileIndex : String → Option String
  readFile : String → Except String (List Char)
  parse : List Char → Option ConversationMessage
  sessions : List Session

/-- The message list `getConversation` resolves with: an unresolved id or a
failed read degrades to `[]` (both caught in the source). -/
def getConversationMsgs (env : StorageEnv) (sessionId : String) :
    List ConversationMessage :=
  match env.fileIndex sessionId with
  | none => []
  | some path =>
    match env.readFile path with
    | Except.error _ => []
    | Except.ok content => conversationFromContent env.parse content

/-- `getConversation` as observed by a caller awaiting its promise: an
`Except.error` would model a rejected promise.  Every path of the source is
wrapped in a catch that logs and falls through to the accumulated (empty)
message list, so every branch resolves. -/
def getConversation (env : StorageEnv) (sessionId : String) :
    Except String (List ConversationMessage) :=
  match env.fileIndex sessionId with
  | none => Except.ok []
  | some path =>
    match env.readFile path with
    | Except.error _ => Except.ok []
    | Except.ok content => Except.ok (conversationFromContent env.parse content)

/-- `getConversationStream`: unresolved id returns offset 0; a failed
`stat`/read is caught and returns the unchanged offset; otherwise the tail
read runs. -/
def getConversationStream (env : StorageEnv) (sessionId : String)
    (fromOffset : Nat) : StreamResult :=
  match env.fileIndex sessionId with
  | none => ⟨[], 0⟩
  | some path =>
    match env.readFile path with
    | Except.error _ => ⟨[], fromOffset⟩
    | Except.ok content => streamFromContent env.parse content fromOffset

/-- `getConversationStream` as observed by a caller awaiting its promise
(cf. `getConversation`): the source catches every failure, so every branch
resolves. -/
def getConversationStreamRun (env : StorageEnv) (sessionId : String)
    (fromOffset : Nat) : Except String StreamResult :=
  match env.fileIndex sessionId with
  | none => Except.ok ⟨[], 0⟩
  | some path =>
    match env.readFile path with
    | Except.error _ => Except.ok ⟨[], fromOffset⟩
    | Except.ok content => Except.ok (streamFromContent env.parse content fromOffset)

/-- `k` chained incremental reads: start at offset 0, then call again at
each previously returned `nextOffset`, concatenating the messages. -/
def chainStream (env : StorageEnv) (sessionId : String) : Nat →
    List ConversationMessage × Nat
  | 0 => ([], 0)
  | k + 1 =>
    let p := chainStream env sessionId k
    let r := getConversationStream env sessionId p.2
    (p.1 ++ r.messages, r.nextOffset)

/-- `msg.type === "user" || msg.type === "assistant"`. -/
def isUA (m : ConversationMessage) : Bool :=
  m.type == "user" || m.type == "assistant"

/-- The `user`/`assistant` projection of a parsed line, as the incremental
reader keeps it. -/
def uaParse (parse : List Char → Option ConversationMessage)
    (l : List Char) : Option ConversationMessage :=
  match parse l with
  | some m => if isUA m then some m else none
  | none => none

/-! ## Per-session usage (`getSessionUsage`) -/

/-- The mutable locals of `getSessionUsage`'s message loop. -/
structure SessScan where
  tin : Nat
  tout : Nat
  cc : Nat
  cr : Nat
  cnt : Nat
  cost : ℚ
  model : String
  firstAt : Option String
  lastAt : Option String
deriving DecidableEq

def sessScanInit : SessScan := ⟨0, 0, 0, 0, 0, 0, "Unknown", none, none⟩

/-- The first half of `getSessionUsage`'s loop body: accumulate an
assistant message's usage record and track its model. -/
def sessStepUsage (st : SessScan) (msg : ConversationMessage) : SessScan :=
  if msg.type = "assistant" then
    match msg.message with
    | some body =>
      match body.usage with
      | some usage =>
        let st' : SessScan :=
          { st with
            tin := st.tin + usage.input_tokens
            tout := st.tout + usage.output_tokens
            cc := st.cc + usage.cache_creation_input_tokens.getD 0
            cr := st.cr + usage.cache_read_input_tokens.getD 0
            cost := st.cost + calculateCost usage body.model }
        match body.model with
        | some m =>
          if m = "" then st'
          else { st' with model := getModelDisplayName (some m) }
        | none => st'
      | none => st
    | none => st
  else st

/-- The second half of the loop body: count a `user`/`assistant` message and
update the first/last timestamps. -/
def sessStepCount (st : SessScan) (msg : ConversationMessage) : SessScan :=
  if msg.type = "user" ∨ msg.type = "assistant" then
    let st2 := { st with cnt := st.cnt + 1 }
    match msg.timestamp with
    | some t =>
      if t = "" then st2
      else
        { st2 with
          firstAt := match st2.firstAt with | none => some t | some f => some f
          lastAt := some t }
    | none => st2
  else st

/-- One iteration of `getSessionUsage`'s loop over the conversation. -/
def sessStep (st : SessScan) (msg : ConversationMessage) : SessScan :=
  sessStepCount (sessStepUsage st msg) msg

def getSessionUsage (env : StorageEnv) (sessionId : String) :
    Option SessionUsage :=
  let messages := getConversationMsgs env sessionId
  if messages.length = 0 then none
  else
    let session := env.sessions.find? (fun s => s.id == sessionId)
    let st := messages.foldl sessStep sessScanInit
    some
      { sessionId := sessionId
        display := jsOrStr (session.map (fun s => s.display)) "Unknown session"
        project := jsOrStr (session.map (fun s => s.project)) ""
        projectName := jsOrStr (session.map (fun s => s.projectName)) ""
        totalInputTokens := st.tin
        totalOutputTokens := st.tout
        cacheCreationTokens := st.cc
        cacheReadTokens := st.cr
        messageCount := st.cnt
        model := st.model
        estimatedCost := st.cost
        firstMessageAt := st.firstAt
        lastMessageAt := st.lastAt }

/-! ## Cross-session usage summary (`getUsageSummary`) -/

structure ModelAgg where
  inputTokens : Nat
  outputTokens : Nat
  cost : ℚ
  count : Nat
deriving DecidableEq

structure DateAgg where
  inputTokens : Nat
  outputTokens : Nat
  cacheCreationTokens : Nat
  cacheReadTokens : Nat
  cost : ℚ
  sessionCount : Nat
deriving DecidableEq

structure DateRow where
  date : String
  inputTokens : Nat
  outputTokens : Nat
  cacheCreationTokens : Nat
  cacheReadTokens : Nat
  cost : ℚ
  sessionCount : Nat
deriving DecidableEq

structure ProjAgg where
  projectName : String
  inputTokens : Nat
  outputTokens : Nat
  cost : ℚ
  sessionCount : Nat
deriving DecidableEq

structure UsageSummary where
  totalInputTokens : Nat
  totalOutputTokens : Nat
  totalCacheCreationTokens : Nat
  totalCacheReadTokens : Nat
  totalEstimatedCost : ℚ
  sessionCount : Nat
  messageCount : Nat
  byModel : List (String × ModelAgg)
  byDate : List DateRow
  byProject : List (String × ProjAgg)
deriving DecidableEq

/-- A time-range filter.  The source carries ISO strings and parses them
with `new Date(...).getTime()`; the model carries the parsed
epoch-millisecond values directly (the string round-trip is a bijection on
the strings the code constructs). -/
structure TimeRange where
  start : Option Int
  endT : Option Int
deriving DecidableEq

structure UsageOptions where
  timeRange : Option TimeRange
  project : Option String
deriving DecidableEq

/-- Epoch-day of a UTC millisecond timestamp (`Math.floor(ms / 86400000)`,
as `toISOString` computes the calendar date). -/
def epochDay (ms : Int) : Int := Int.fdiv ms 86400000

/-- Civil date from epoch day count (proleptic Gregorian, the algorithm
`toISOString` realizes).  Returns (year, month, day). -/
def civilOfDays (z0 : Int) : Int × Int × Int :=
  let z := z0 + 719468
  let era := Int.fdiv z 146097
  let doe := z - era * 146097
  let yoe := Int.fdiv (doe - Int.fdiv doe 1460 + Int.fdiv doe 36524 - Int.fdiv doe 146096) 365
  let y := yoe + era * 400
  let doy := doe - (365 * yoe + Int.fdiv yoe 4 - Int.fdiv yoe 100)
  let mp := Int.fdiv (5 * doy + 2) 153
  let d := doy - Int.fdiv (153 * mp + 2) 5 + 1
  let m := mp + (if mp < 10 then 3 else -9)
  (y + (if m ≤ 2 then 1 else 0), m, d)

def pad2 (n : Int) : String := if n < 10 then "0" ++ toString n else toString n

def pad4 (n : Int) : String :=
  if n < 10 then "000" ++ toString n
  else if n < 100 then "00" ++ toString n
  else if n < 1000 then "0" ++ toString n
  else toString n

/-- `new Date(ms).toISOString().split("T")[0]` in a UTC environment. -/
def msToDateString (ms : Int) : String :=
  let c := civilOfDays (epochDay ms)
  pad4 c.1 ++ "-" ++ pad2 c.2.1 ++ "-" ++ pad2 c.2.2

/-- The mutable state of `getUsageSummary`'s session loop (the summary under
construction, with `byDate` still in `Map` form). -/
structure SummaryAcc where
  totalInputTokens : Nat
  totalOutputTokens : Nat
  totalCacheCreationTokens : Nat
  totalCacheReadTokens : Nat
  totalEstimatedCost : ℚ
  sessionCount : Nat
  messageCount : Nat
  byModel : List (String × ModelAgg)
  byDateMap : List (String × DateAgg)
  byProject : List (String × ProjAgg)

def summaryAccInit : SummaryAcc := ⟨0, 0, 0, 0, 0, 0, 0, [], [], []⟩

/-- The per-message locals of the inner loop, together with the summary
fields that loop mutates directly (`byModel`, the cache grand totals). -/
structure MsgScan where
  sInp : Nat
  sOut : Nat
  sCC : Nat
  sCR : Nat
  sCost : ℚ
  sCnt : Nat
  byModel : List (String × ModelAgg)
  totCC : Nat
  totCR : Nat

/-- One iteration of `getUsageSummary`'s message loop. -/
def msgScanStep (st : MsgScan) (msg : ConversationMessage) : MsgScan :=
  let st1 :=
    if msg.type = "assistant" then
      match msg.message with
      | some body =>
        match body.usage with
        | some usage =>
          let cost := calculateCost usage body.model
          let modelName := getModelDisplayName body.model
          let entry := getOrA st.byModel modelName ⟨0, 0, 0, 0⟩
          { st with
            sInp := st.sInp + usage.input_tokens
            sOut := st.sOut + usage.output_tokens
            sCC := st.sCC + usage.cache_creation_input_tokens.getD 0
            sCR := st.sCR + usage.cache_read_input_tokens.getD 0
            totCC := st.totCC + usage.cache_creation_input_tokens.getD 0
            totCR := st.totCR + usage.cache_read_input_tokens.getD 0
            sCost := st.sCost + cost
            byModel := mapSet st.byModel modelName
              ⟨entry.inputTokens + usage.input_tokens,
               entry.outputTokens + usage.output_tokens,
               entry.cost + cost, entry.count + 1⟩ }
        | none => st
      | none => st
    else st
  if msg.type = "user" ∨ msg.type = "assistant" then
    { st1 with sCnt := st1.sCnt + 1 }
  else st1

/-- One iteration of `getUsageSummary`'s session loop. -/
def sessionStep (env : StorageEnv) (acc : SummaryAcc) (session : Session) :
    SummaryAcc :=
  let messages := getConversationMsgs env session.id
  let sc := messages.foldl msgScanStep
    ⟨0, 0, 0, 0, 0, 0, acc.byModel, acc.totalCacheCreationTokens,
     acc.totalCacheReadTokens⟩
  let acc1 : SummaryAcc :=
    { acc with
      byModel := sc.byModel
      totalCacheCreationTokens := sc.totCC
      totalCacheReadTokens := sc.totCR }
  if 0 < sc.sCnt then
    let date := msToDateString session.timestamp
    let dateEntry := getOrA acc1.byDateMap date ⟨0, 0, 0, 0, 0, 0⟩
    let projectKey := if session.project = "" then "Unknown" else session.project
    let projEntry := getOrA acc1.byProject projectKey
      ⟨jsOrStr (some session.projectName) "Unknown", 0, 0, 0, 0⟩
    { acc1 with
      sessionCount := acc1.sessionCount + 1
      messageCount := acc1.messageCount + sc.sCnt
      totalInputTokens := acc1.totalInputTokens + sc.sInp
      totalOutputTokens := acc1.totalOutputTokens + sc.sOut
      totalEstimatedCost := acc1.totalEstimatedCost + sc.sCost
      byDateMap := mapSet acc1.byDateMap date
        ⟨dateEntry.inputTokens + sc.sInp, dateEntry.outputTokens + sc.sOut,
         dateEntry.cacheCreationTokens + sc.sCC,
         dateEntry.cacheReadTokens + sc.sCR,
         dateEntry.cost + sc.sCost, dateEntry.sessionCount + 1⟩
      byProject := mapSet acc1.byProject projectKey
        ⟨projEntry.projectName, projEntry.inputTokens + sc.sInp,
         projEntry.outputTokens + sc.sOut, projEntry.cost + sc.sCost,
         projEntry.sessionCount + 1⟩ }
  else acc1

/-- Lexicographic strict order on strings (`localeCompare` on the
digits-and-hyphen date keys). -/
def strLtL : List Char → List Char → Bool
  | [], [] => false
  | [], _ :: _ => true
  | _ :: _, [] => false
  | a :: as, b :: bs => if a = b then strLtL as bs else Nat.blt a.toNat b.toNat

def strLt (a b : String) : Bool := strLtL a.data b.data

/-- Stable insertion into an ascending list (the final
`sort((a, b) => a.date.localeCompare(b.date))`). -/
def insertByDate (x : DateRow) : List DateRow → List DateRow
  | [] => [x]
  | y :: ys => if strLt x.date y.date then x :: y :: ys else y :: insertByDate x ys

def sortByDate (l : List DateRow) : List DateRow :=
  l.foldl (fun acc x => insertByDate x acc) []

def dateRowOf (p : String × DateAgg) : DateRow :=
  ⟨p.1, p.2.inputTokens, p.2.outputTokens, p.2.cacheCreationTokens,
   p.2.cacheReadTokens, p.2.cost, p.2.sessionCount⟩

/-- The session filters of `getUsageSummary`: by project (if the option is
truthy) and by inclusive time range (if either bound is given; an absent
start is 0, an absent end is +∞). -/
def filterSessions (sessions : List Session) (options : Option UsageOptions) :
    List Session :=
  let f1 :=
    match options with
    | some o =>
      match o.project with
      | some p => if p = "" then sessions else sessions.filter (fun s => s.project == p)
      | none => sessions
    | none => sessions
  match options with
  | some o =>
    match o.timeRange with
    | some tr =>
      if tr.start.isSome || tr.endT.isSome then
        let startTime := tr.start.getD 0
        f1.filter (fun s =>
          decide (startTime ≤ s.timestamp) &&
          (match tr.endT with
           | some e => decide (s.timestamp ≤ e)
           | none => true))
      else f1
    | none => f1
  | none => f1

def getUsageSummary (env : StorageEnv) (options : Option UsageOptions) :
    UsageSummary :=
  let filtered := filterSessions env.sessions options
  let acc := filtered.foldl (sessionStep env) summaryAccInit
  { totalInputTokens := acc.totalInputTokens
    totalOutputTokens := acc.totalOutputTokens
    totalCacheCreationTokens := acc.totalCacheCreationTokens
    totalCacheReadTokens := acc.totalCacheReadTokens
    totalEstimatedCost := acc.totalEstimatedCost
    sessionCount := acc.sessionCount
    messageCount := acc.messageCount
    byModel := acc.byModel
    byDate := sortByDate (acc.byDateMap.map dateRowOf)
    byProject := acc.byProject }

/-! ## Daily usage (`getDailyUsage`) -/

/-- The date-filling loop of `getDailyUsage`: every day from `current` to
`endMs` inclusive in steps of one UTC day (`setDate(getDate() + 1)` in a
UTC environment with no DST). -/
def dailyDates (endMs : Int) (current : Int) : List Int :=
  if h : current ≤ endMs then current :: dailyDates endMs (current + 86400000)
  else []
termination_by (endMs + 86400000 - current).toNat
decreasing_by
  simp_wf
  omega

def zeroDateRow (ds : String) : DateRow := ⟨ds, 0, 0, 0, 0, 0, 0⟩

/-- `new Map(summary.byDate.map(d => [d.date, d])).get(ds)` (later entries
of the constructor list override earlier ones). -/
def findLastRow (rows : List DateRow) (ds : String) : Option DateRow :=
  rows.foldl (fun acc r => if r.date == ds then some r else acc) none

/-- `getDailyUsage(days)` against a single clock reading `now` (the source
constructs `endDate` and `startDate` from two adjacent `new Date()` calls;
they are modelled as the same instant). -/
def getDailyUsage (env : StorageEnv) (now : Int) (days : Nat) : List DateRow :=
  let endMs := now
  let startMs := now - days * 86400000
  let summary := getUsageSummary env
    (some ⟨some ⟨some startMs, some endMs⟩, none⟩)
  (dailyDates endMs startMs).map (fun ms =>
    let ds := msToDateString ms
    match findLastRow summary.byDate ds with
    | some row => row
    | none => zeroDateRow ds)

/-! ## History reconciler (`findSessionByTimestamp`, `encodeProjectPath`) -/

/-- A directory entry as `findSessionByTimestamp` consumes it: a file name
and its `mtimeMs` from `stat`. -/
structure FileEnt where
  name : String
  mtimeMs : Int
deriving DecidableEq

/-- The projects directory tree: encoded-project-directory name to file
listing; an absent key models a directory whose `readdir` throws. -/
structure ProjectsFs where
  dirs : List (String × List FileEnt)

/-- `path.replace(/[/.]/g, "-")`. -/
def encodeProjectPath (path : String) : String :=
  String.mk (path.data.map (fun c => if c = '/' ∨ c = '.' then '-' else c))

/-- Split on a character (for `getProjectName`'s `split("/")`). -/
def splitOnChar (sep : Char) : List Char → List (List Char)
  | [] => [[]]
  | c :: cs =>
    if c = sep then [] :: splitOnChar sep cs
    else
      match splitOnChar sep cs with
      | [] => [[c]]
      | l :: ls => (c :: l) :: ls

/-- `projectPath.split("/").filter(Boolean)` then last segment, or the path
itself when no segment exists. -/
def getProjectName (projectPath : String) : String :=
  let parts := (splitOnChar '/' projectPath.data).filter (fun l => l ≠ [])
  match parts.getLast? with
  | some p => String.mk p
  | none => projectPath

/-- `basename(file, ".jsonl")`. -/
def dropJsonl (s : String) : String :=
  if trailsWith s.data ".jsonl".data then String.mk (s.data.take (s.data.length - 6))
  else s

/-- One step of the closest-file scan: `closestTimeDiff` starts at
`Infinity`, so the first file always wins, and only a strictly smaller
`Math.abs(mtime - timestamp)` replaces the incumbent thereafter. -/
def closestStep (timestamp : Int) (acc : Option FileEnt) (f : FileEnt) :
    Option FileEnt :=
  match acc with
  | none => some f
  | some g =>
    if (f.mtimeMs - timestamp).natAbs < (g.mtimeMs - timestamp).natAbs
    then some f else acc

/-- The closest-file scan of `findSessionByTimestamp`. -/
def closestScan (timestamp : Int) (files : List FileEnt) : Option FileEnt :=
  files.foldl (closestStep timestamp) none

def findSessionByTimestamp (fs : ProjectsFs) (encodedProject : String)
    (timestamp : Int) : Option String :=
  match alookup fs.dirs encodedProject with
  | none => none
  | some files =>
    let jsonlFiles := files.filter (fun f => trailsWith f.name.data ".jsonl".data)
    match closestScan timestamp jsonlFiles with
    | some f => some (dropJsonl f.name)
    | none => none

/-- The history half of `getSessions`: resolve each entry's session id
(directly, or through the reconciler), drop unresolvable or already-seen
ids, and emit a `Session` from the entry's own metadata. -/
def historyLoop (fs : ProjectsFs) : List HistoryEntry → List String → List Session
  | [], _ => []
  | e :: rest, seen =>
    let sid :=
      match e.sessionId with
      | some s => some s
      | none => findSessionByTimestamp fs (encodeProjectPath e.project) e.timestamp
    match sid with
    | none => historyLoop fs rest seen
    | some s =>
      if s ∈ seen then historyLoop fs rest seen
      else
        ⟨s, e.display, e.timestamp, e.project, getProjectName e.project⟩ ::
          historyLoop fs rest (s :: seen)

/-! ## Request coalescer (`dedupe` and its two call sites) -/

/-- The process-wide `pendingRequests` map plus instrumentation: `pending`
maps a key to the promise its in-flight computation will settle, `nextId`
names the next promise, and `execs` counts how many underlying computations
(`fn()` invocations) have been launched. -/
structure Coalescer where
  pending : List (String × Nat)
  nextId : Nat
  execs : Nat
deriving DecidableEq

def coalescerInit : Coalescer := ⟨[], 0, 0⟩

/-- `dedupe(key, fn)` up to its first suspension point: a pending entry for
the key is returned as-is (no new execution); otherwise `fn()` is launched,
registered, and its promise returned. -/
def dedupe (c : Coalescer) (key : String) : Nat × Coalescer :=
  match alookup c.pending key with
  | some pid => (pid, c)
  | none => (c.nextId, ⟨(key, c.nextId) :: c.pending, c.nextId + 1, c.execs + 1⟩)

/-- The `.finally` handler: the settled key's entry is removed. -/
def settle (c : Coalescer) (key : String) : Coalescer :=
  ⟨eraseKey c.pending key, c.nextId, c.execs⟩

/-- A `getConversation(sessionId)` call entering the coalescer: the source
wraps its body in `dedupe` under this key. -/
def getConversationEnter (c : Coalescer) (sessionId : String) : Nat × Coalescer :=
  dedupe c ("getConversation:" ++ sessionId)

/-- A `getConversationStream(sessionId, ...)` call: the source does NOT wrap
the stream read in `dedupe`; every call launches its own read. -/
def getConversationStreamEnter (c : Coalescer) (_sessionId : String) :
    Nat × Coalescer :=
  (c.nextId, ⟨c.pending, c.nextId + 1, c.execs + 1⟩)

/-! ## Concrete test fixtures -/

/-- A minimal `user` log record. -/
def userMsg : ConversationMessage := ⟨"user", none, none, none, none⟩

/-- A minimal `summary` log record. -/
def summaryMsg : ConversationMessage := ⟨"summary", none, none, none, some "s"⟩

/-- A parse oracle recognising the single-byte line `U` (modulo surrounding
whitespace, as `JSON.parse` would) as a `user` record. -/
def parseU (l : List Char) : Option ConversationMessage :=
  if trimL l = ['U'] then some userMsg else none

/-- A parse oracle recognising `S` as a `summary` record. -/
def parseS (l : List Char) : Option ConversationMessage :=
  if trimL l = ['S'] then some summaryMsg else none

/-- Environment with one resolvable session `s` whose file is `"U\n"`. -/
def envU : StorageEnv :=
  ⟨fun sid => if sid = "s" then some "p" else none,
   fun path => if path = "p" then Except.ok "U\n".data else Except.error "ENOENT",
   parseU, []⟩

/-- Environment whose session `s` has the file `"U\nX\nU\n"`: a good line, a
malformed line, a good line. -/
def envMal : StorageEnv :=
  ⟨fun sid => if sid = "s" then some "p" else none,
   fun path => if path = "p" then Except.ok "U\nX\nU\n".data else Except.error "ENOENT",
   parseU, []⟩

/-- Environment whose session `s` has the single summary line `"S\n"`. -/
def envS : StorageEnv :=
  ⟨fun sid => if sid = "s" then some "p" else none,
   fun path => if path = "p" then Except.ok "S\n".data else Except.error "ENOENT",
   parseS, []⟩

/-- Environment whose session `s` resolves to a path whose read fails. -/
def envFail : StorageEnv :=
  ⟨fun sid => if sid = "s" then some "p" else none,
   fun _ => Except.error "EIO",
   fun _ => none, []⟩

/-- Environment with no sessions and no files at all. -/
def envEmpty : StorageEnv :=
  ⟨fun _ => none, fun _ => Except.error "ENOENT", fun _ => none, []⟩

/-- A projects tree whose `-a-b` directory holds two `.jsonl` files (mtimes
100 and 50) and one non-log file. -/
def fsW : ProjectsFs :=
  ⟨[("-a-b", [⟨"x.jsonl", 100⟩, ⟨"y.jsonl", 50⟩, ⟨"z.txt", 0⟩])]⟩

/-- A projects tree whose `-a-b` directory holds no `.jsonl` file. -/
def fsW2 : ProjectsFs := ⟨[("-a-b", [⟨"z.txt", 0⟩])]⟩

/-- A history entry without a session id for project `/a/b` at time 60. -/
def histEntryW : HistoryEntry := ⟨"d", 60, "/a/b", none⟩

/-! ## Theorems -/

/-- Claim C4: with the session resolved to a file of the given content, a
starting offset at or beyond the file size returns no messages and the
unchanged offset; otherwise the returned `nextOffset` lies between
`fromOffset` and the file size, so chained offsets are monotonically
non-decreasing and never exceed the file's size at read time. -/
theorem stream_offsets_bounded (env : StorageEnv) (sessionId path : String)
    (content : List Char) (fromOffset : Nat)
    (hidx : env.fileIndex sessionId = some path)
    (hread : env.readFile path = Except.ok content) :
    (content.length ≤ fromOffset →
      getConversationStream env sessionId fromOffset = ⟨[], fromOffset⟩) ∧
    (fromOffset < content.length →
      fromOffset ≤ (getConversationStream env sessionId fromOffset).nextOffset ∧
      (getConversationStream env sessionId fromOffset).nextOffset ≤ content.length) := by
  unfold getConversationStream
  rw [hidx]
  dsimp only
  rw [hread]
  dsimp only
  unfold streamFromContent
  constructor
  · intro h
    rw [if_pos h]
  · intro h
    rw [if_neg (by omega)]
    dsimp only
    constructor
    · split
      · omega
      · omega
    · split
      · omega
      · omega

/-- Claim C4 witness: on the concrete environment `envU` (file `"U\n"`,
size 2): a call at offset 5 returns `⟨[], 5⟩`, and a call at offset 0
returns an offset between 0 and 2. -/
theorem stream_offsets_bounded_witness :
    getConversationStream envU "s" 5 = ⟨[], 5⟩ ∧
    (0 ≤ (getConversationStream envU "s" 0).nextOffset ∧
      (getConversationStream envU "s" 0).nextOffset ≤ "U\n".data.length) := by
  refine ⟨?_, ?_⟩
  · exact (stream_offsets_bounded envU "s" "p" "U\n".data 5 rfl rfl).1 (by decide)
  · exact (stream_offsets_bounded envU "s" "p" "U\n".data 0 rfl rfl).2 (by decide)

/-- JS truthiness on a cache token count: the guarded cache term equals the
unguarded linear term, because a zero count prices to zero anyway. -/
theorem cacheTermEq (n : Nat) (a b : ℚ) :
    (if n ≠ 0 then (n : ℚ) / 1000000 * a * b else 0) = (n : ℚ) / 1000000 * a * b := by
  by_cases h : n = 0
  · subst h
    simp
  · rw [if_pos h]

/-- Claim C6: `calculateCost` is the sum of the four linearly-priced
components under the resolved pricing, with absent cache fields contributing
zero; and the concrete record with a million input tokens and nothing else
costs exactly 3 under the default (input-rate-3) pricing. -/
theorem calculateCost_components :
    (∀ (usage : TokenUsage) (model : Option String),
      calculateCost usage model =
        (usage.input_tokens : ℚ) / 1000000 * (getModelPricing model).inputPerMillion +
        (usage.output_tokens : ℚ) / 1000000 * (getModelPricing model).outputPerMillion +
        (usage.cache_creation_input_tokens.getD 0 : ℚ) / 1000000 *
          (getModelPricing model).inputPerMillion * (getModelPricing model).cacheWriteMultiplier +
        (usage.cache_read_input_tokens.getD 0 : ℚ) / 1000000 *
          (getModelPricing model).inputPerMillion * (getModelPricing model).cacheReadMultiplier) ∧
    calculateCost ⟨1000000, 0, none, none⟩ none = 3 := by
  constructor
  · intro usage model
    obtain ⟨i, o, cc, cr⟩ := usage
    unfold calculateCost
    dsimp only
    rcases cc with _ | n
    · rcases cr with _ | m
      · dsimp only [Option.getD]
        ring
      · dsimp only [Option.getD]
        rw [cacheTermEq]
        ring
    · rcases cr with _ | m
      · dsimp only [Option.getD]
        rw [cacheTermEq]
        ring
      · dsimp only [Option.getD]
        rw [cacheTermEq, cacheTermEq]
  · norm_num [calculateCost, getModelPricing, DEFAULT_PRICING]

/-- Claim C8 counterexample: with the session resolved to a path whose read
fails with an unexpected I/O error (`envFail`), both read modes resolve
successfully with empty data (`Except.ok`), instead of propagating the
failure as the claim states. -/
theorem read_failure_not_propagated_counterexample :
    getConversation envFail "s" = Except.ok [] ∧
    getConversationStreamRun envFail "s" 7 = Except.ok ⟨[], 7⟩ :=
  ⟨rfl, rfl⟩

/-- Claim C8 (amended): an unexpected I/O failure on a file the Session
Index resolved is caught and degraded to an empty result — the full read
resolves with `[]` and the stream read resolves with no messages and the
unchanged offset; neither propagates the error. -/
theorem read_failure_degrades (env : StorageEnv) (sessionId path e : String)
    (hidx : env.fileIndex sessionId = some path)
    (hread : env.readFile path = Except.error e) :
    getConversation env sessionId = Except.ok [] ∧
    ∀ fromOffset, getConversationStreamRun env sessionId fromOffset =
      Except.ok ⟨[], fromOffset⟩ := by
  unfold getConversation getConversationStreamRun
  rw [hidx]
  dsimp only
  rw [hread]
  exact ⟨rfl, fun _ => rfl⟩

/-- Claim C8 (amended) witness: the amended behaviour on `envFail`. -/
theorem read_failure_degrades_witness :
    getConversation envFail "s" = Except.ok [] ∧
    getConversationStreamRun envFail "s" 3 = Except.ok ⟨[], 3⟩ := by
  obtain ⟨h1, h2⟩ := read_failure_degrades envFail "s" "p" "EIO" rfl rfl
  exact ⟨h1, h2 3⟩

/-- Claim C9 counterexample: two concurrent `getConversationStream` calls
for the same session, the second arriving before the first settles, launch
two underlying computations with distinct promises — the stream read is not
routed through the Request Coalescer. -/
theorem stream_not_coalesced_counterexample :
    (getConversationStreamEnter (getConversationStreamEnter coalescerInit "s").2 "s").2.execs
      = 2 ∧
    (getConversationStreamEnter coalescerInit "s").1 ≠
      (getConversationStreamEnter (getConversationStreamEnter coalescerInit "s").2 "s").1 := by
  decide

/-- Claim C9 (amended): only the full read is deduplicated: a
`getConversation` call with no in-flight entry launches one computation; a
second concurrent call for the same session joins the same promise without
launching another; the `.finally` handler removes the entry on completion;
and a later call then starts fresh work. -/
theorem getConversation_coalesced (c : Coalescer) (sessionId : String)
    (h : alookup c.pending ("getConversation:" ++ sessionId) = none) :
    (getConversationEnter c sessionId).2.execs = c.execs + 1 ∧
    (getConversationEnter (getConversationEnter c sessionId).2 sessionId).1 =
      (getConversationEnter c sessionId).1 ∧
    (getConversationEnter (getConversationEnter c sessionId).2 sessionId).2.execs =
      c.execs + 1 ∧
    settle (getConversationEnter (getConversationEnter c sessionId).2 sessionId).2
        ("getConversation:" ++ sessionId) =
      ⟨c.pending, c.nextId + 1, c.execs + 1⟩ ∧
    (getConversationEnter
        (settle (getConversationEnter (getConversationEnter c sessionId).2 sessionId).2
          ("getConversation:" ++ sessionId)) sessionId).2.execs = c.execs + 2 := by
  unfold getConversationEnter dedupe settle
  rw [h]
  dsimp only
  rw [show alookup (("getConversation:" ++ sessionId, c.nextId) :: c.pending)
        ("getConversation:" ++ sessionId) = some c.nextId by
      unfold alookup; rw [if_pos rfl]]
  dsimp only
  rw [show eraseKey (("getConversation:" ++ sessionId, c.nextId) :: c.pending)
        ("getConversation:" ++ sessionId) = c.pending by
      unfold eraseKey; rw [if_pos rfl]]
  rw [h]
  exact ⟨rfl, rfl, rfl, rfl, rfl⟩

/-- Claim C9 (amended) witness: the coalesced full-read behaviour from the
empty coalescer state. -/
theorem getConversation_coalesced_witness :
    (getConversationEnter coalescerInit "s").2.execs = 1 ∧
    (getConversationEnter (getConversationEnter coalescerInit "s").2 "s").1 =
      (getConversationEnter coalescerInit "s").1 ∧
    (getConversationEnter (getConversationEnter coalescerInit "s").2 "s").2.execs = 1 ∧
    settle (getConversationEnter (getConversationEnter coalescerInit "s").2 "s").2
        ("getConversation:" ++ "s") = ⟨[], 1, 1⟩ ∧
    (getConversationEnter
        (settle (getConversationEnter (getConversationEnter coalescerInit "s").2 "s").2
          ("getConversation:" ++ "s")) "s").2.execs = 2 := by
  exact getConversation_coalesced coalescerInit "s" rfl

/-- The closest-file fold, started from an incumbent, yields a candidate no
farther from the timestamp than the incumbent or any scanned file. -/
theorem closestScan_min_aux (t : Int) (files : List FileEnt) (g : FileEnt) :
    ∃ h, files.foldl (closestStep t) (some g) = some h ∧ (h = g ∨ h ∈ files) ∧
      (h.mtimeMs - t).natAbs ≤ (g.mtimeMs - t).natAbs ∧
      ∀ f ∈ files, (h.mtimeMs - t).natAbs ≤ (f.mtimeMs - t).natAbs := by
  induction files generalizing g with
  | nil => exact ⟨g, rfl, Or.inl rfl, le_refl _, by simp⟩
  | cons f fs ih =>
    rw [List.foldl_cons]
    by_cases hlt : (f.mtimeMs - t).natAbs < (g.mtimeMs - t).natAbs
    · rw [show closestStep t (some g) f = some f by
        show (if (f.mtimeMs - t).natAbs < (g.mtimeMs - t).natAbs
          then some f else some g) = some f
        rw [if_pos hlt]]
      obtain ⟨h, heq, hmem, hle, hall⟩ := ih f
      refine ⟨h, heq, ?_, le_trans hle (le_of_lt hlt), ?_⟩
      · rcases hmem with h1 | h2
        · exact Or.inr (by rw [h1]; exact List.mem_cons_self f fs)
        · exact Or.inr (List.mem_cons_of_mem f h2)
      · intro x hx
        rcases List.mem_cons.mp hx with h1 | h2
        · rw [h1]; exact hle
        · exact hall x h2
    · rw [show closestStep t (some g) f = some g by
        show (if (f.mtimeMs - t).natAbs < (g.mtimeMs - t).natAbs
          then some f else some g) = some g
        rw [if_neg hlt]]
      obtain ⟨h, heq, hmem, hle, hall⟩ := ih g
      refine ⟨h, heq, ?_, hle, ?_⟩
      · rcases hmem with h1 | h2
        · exact Or.inl h1
        · exact Or.inr (List.mem_cons_of_mem f h2)
      · intro x hx
        rcases List.mem_cons.mp hx with h1 | h2
        · rw [h1]; exact le_trans hle (le_of_not_lt hlt)
        · exact hall x h2

/-- On a non-empty candidate list the scan picks a member minimizing the
absolute mtime distance. -/
theorem closestScan_min (t : Int) (files : List FileEnt) (f : FileEnt)
    (h : closestScan t files = some f) :
    f ∈ files ∧ ∀ g ∈ files, (f.mtimeMs - t).natAbs ≤ (g.mtimeMs - t).natAbs := by
  cases files with
  | nil => exact absurd h (by unfold closestScan; simp)
  | cons x xs =>
    unfold closestScan at h
    rw [List.foldl_cons, show closestStep t none x = some x from rfl] at h
    obtain ⟨h', heq, hmem, hle, hall⟩ := closestScan_min_aux t xs x
    rw [heq] at h
    obtain rfl : h' = f := by injection h
    refine ⟨?_, ?_⟩
    · rcases hmem with h1 | h2
      · rw [h1]; exact List.mem_cons_self x xs
      · exact List.mem_cons_of_mem x h2
    · intro g hg
      rcases List.mem_cons.mp hg with h1 | h2
      · rw [h1]; exact hle
      · exact hall g h2

/-- Claim C7: for a history entry without a session id, the reconciler looks
up the hyphen-encoded project directory, keeps only `.jsonl` files, and
resolves to the basename of the file whose mtime is closest to the entry's
timestamp; a missing directory or an empty candidate list resolves to
nothing, and an unresolvable entry contributes no session to the history
scan. -/
theorem history_reconciler_closest (fs : ProjectsFs) (e : HistoryEntry)
    (hno : e.sessionId = none) :
    (alookup fs.dirs (encodeProjectPath e.project) = none →
      findSessionByTimestamp fs (encodeProjectPath e.project) e.timestamp = none) ∧
    (∀ files, alookup fs.dirs (encodeProjectPath e.project) = some files →
      findSessionByTimestamp fs (encodeProjectPath e.project) e.timestamp =
        (closestScan e.timestamp
          (files.filter (fun f => trailsWith f.name.data ".jsonl".data))).map
          (fun f => dropJsonl f.name) ∧
      (files.filter (fun f => trailsWith f.name.data ".jsonl".data) = [] →
        findSessionByTimestamp fs (encodeProjectPath e.project) e.timestamp = none) ∧
      (∀ f, closestScan e.timestamp
          (files.filter (fun f => trailsWith f.name.data ".jsonl".data)) = some f →
        f ∈ files.filter (fun f => trailsWith f.name.data ".jsonl".data) ∧
        ∀ g ∈ files.filter (fun f => trailsWith f.name.data ".jsonl".data),
          (f.mtimeMs - e.timestamp).natAbs ≤ (g.mtimeMs - e.timestamp).natAbs)) ∧
    (findSessionByTimestamp fs (encodeProjectPath e.project) e.timestamp = none →
      ∀ rest seen, historyLoop fs (e :: rest) seen = historyLoop fs rest seen) := by
  refine ⟨?_, ?_, ?_⟩
  · intro h
    unfold findSessionByTimestamp
    rw [h]
  · intro files hf
    refine ⟨?_, ?_, ?_⟩
    · unfold findSessionByTimestamp
      rw [hf]
      dsimp only
      cases hscan : closestScan e.timestamp
          (files.filter (fun f => trailsWith f.name.data ".jsonl".data)) with
      | none => rfl
      | some f => rfl
    · intro hempty
      unfold findSessionByTimestamp
      rw [hf]
      dsimp only
      rw [hempty]
      rfl
    · intro f hscan
      exact closestScan_min e.timestamp _ f hscan
  · intro h rest seen
    conv_lhs => rw [historyLoop]
    rw [hno]
    dsimp only
    rw [h]

/-- Claim C7 witness: in the tree `fsW` (files `x.jsonl` at mtime 100,
`y.jsonl` at mtime 50, `z.txt`), the entry at time 60 for project `/a/b`
resolves through directory `-a-b` to `y` (closest mtime), and in `fsW2`
(no `.jsonl` files) the same entry is dropped from the history scan. -/
theorem history_reconciler_closest_witness :
    encodeProjectPath "/a/b" = "-a-b" ∧
    findSessionByTimestamp fsW (encodeProjectPath "/a/b") 60 = some "y" ∧
    (⟨"y.jsonl", 50⟩ : FileEnt) ∈
      ([⟨"x.jsonl", 100⟩, ⟨"y.jsonl", 50⟩, ⟨"z.txt", 0⟩] :
        List FileEnt).filter (fun f => trailsWith f.name.data ".jsonl".data) ∧
    (∀ g ∈ ([⟨"x.jsonl", 100⟩, ⟨"y.jsonl", 50⟩, ⟨"z.txt", 0⟩] :
        List FileEnt).filter (fun f => trailsWith f.name.data ".jsonl".data),
      ((50 : Int) - 60).natAbs ≤ (g.mtimeMs - 60).natAbs) ∧
    historyLoop fsW2 [histEntryW] [] = historyLoop fsW2 [] [] := by
  have h := history_reconciler_closest fsW histEntryW rfl
  have h2 := history_reconciler_closest fsW2 histEntryW rfl
  refine ⟨by decide, ?_, ?_, ?_, ?_⟩
  · have := (h.2.1 [⟨"x.jsonl", 100⟩, ⟨"y.jsonl", 50⟩, ⟨"z.txt", 0⟩] (by decide)).1
    rw [show (histEntryW.project) = "/a/b" from rfl,
        show (histEntryW.timestamp) = 60 from rfl] at this
    rw [this]
    decide
  · have := (h.2.1 [⟨"x.jsonl", 100⟩, ⟨"y.jsonl", 50⟩, ⟨"z.txt", 0⟩] (by decide)).2.2
      ⟨"y.jsonl", 50⟩ (by decide)
    exact this.1
  · have := (h.2.1 [⟨"x.jsonl", 100⟩, ⟨"y.jsonl", 50⟩, ⟨"z.txt", 0⟩] (by decide)).2.2
      ⟨"y.jsonl", 50⟩ (by decide)
    exact this.2
  · exact h2.2.2 (by decide) [] []

/-- A message without assistant usage leaves the usage half of the scan
untouched. -/
theorem sessStepUsage_no_usage (st : SessScan) (m : ConversationMessage)
    (hm : m.type = "assistant" → ∀ b, m.message = some b → b.usage = none) :
    sessStepUsage st m = st := by
  unfold sessStepUsage
  by_cases ht : m.type = "assistant"
  · rw [if_pos ht]
    cases hb : m.message with
    | none => rfl
    | some body =>
      dsimp only
      rw [hm ht body hb]
  · rw [if_neg ht]

/-- The counting half of the scan never touches the token, cost or model
accumulators. -/
theorem sessStepCount_preserves (st : SessScan) (m : ConversationMessage) :
    (sessStepCount st m).tin = st.tin ∧ (sessStepCount st m).tout = st.tout ∧
    (sessStepCount st m).cc = st.cc ∧ (sessStepCount st m).cr = st.cr ∧
    (sessStepCount st m).cost = st.cost ∧ (sessStepCount st m).model = st.model := by
  unfold sessStepCount
  by_cases hua : m.type = "user" ∨ m.type = "assistant"
  · rw [if_pos hua]
    dsimp only
    cases hts : m.timestamp with
    | none => exact ⟨rfl, rfl, rfl, rfl, rfl, rfl⟩
    | some t =>
      dsimp only
      by_cases hte : t = ""
      · rw [if_pos hte]
        exact ⟨rfl, rfl, rfl, rfl, rfl, rfl⟩
      · rw [if_neg hte]
        exact ⟨rfl, rfl, rfl, rfl, rfl, rfl⟩
  · rw [if_neg hua]
    exact ⟨rfl, rfl, rfl, rfl, rfl, rfl⟩

/-- A message carrying no assistant usage leaves the token, cost and model
accumulators of `getSessionUsage`'s scan untouched. -/
theorem sessStep_no_usage (st : SessScan) (m : ConversationMessage)
    (hm : m.type = "assistant" → ∀ b, m.message = some b → b.usage = none) :
    (sessStep st m).tin = st.tin ∧ (sessStep st m).tout = st.tout ∧
    (sessStep st m).cc = st.cc ∧ (sessStep st m).cr = st.cr ∧
    (sessStep st m).cost = st.cost ∧ (sessStep st m).model = st.model := by
  unfold sessStep
  rw [sessStepUsage_no_usage st m hm]
  exact sessStepCount_preserves st m

/-- Folding `getSessionUsage`'s scan over usage-free messages preserves the
token, cost and model accumulators. -/
theorem sessScan_no_usage (msgs : List ConversationMessage) (st : SessScan)
    (hmsgs : ∀ m ∈ msgs, m.type = "assistant" → ∀ b, m.message = some b → b.usage = none) :
    (msgs.foldl sessStep st).tin = st.tin ∧ (msgs.foldl sessStep st).tout = st.tout ∧
    (msgs.foldl sessStep st).cc = st.cc ∧ (msgs.foldl sessStep st).cr = st.cr ∧
    (msgs.foldl sessStep st).cost = st.cost ∧
    (msgs.foldl sessStep st).model = st.model := by
  induction msgs generalizing st with
  | nil => exact ⟨rfl, rfl, rfl, rfl, rfl, rfl⟩
  | cons m ms ih =>
    rw [List.foldl_cons]
    have hm := hmsgs m (List.mem_cons_self m ms)
    have hstep := sessStep_no_usage st m hm
    have hrest := ih (sessStep st m) (fun x hx => hmsgs x (List.mem_cons_of_mem m hx))
    exact ⟨hrest.1.trans hstep.1, hrest.2.1.trans hstep.2.1,
      hrest.2.2.1.trans hstep.2.2.1, hrest.2.2.2.1.trans hstep.2.2.2.1,
      hrest.2.2.2.2.1.trans hstep.2.2.2.2.1,
      hrest.2.2.2.2.2.trans hstep.2.2.2.2.2⟩

/-- Claim C10: `getSessionUsage` returns `none` exactly when the full read
yields no messages; on a non-empty conversation none of whose assistant
messages carries usage data it returns a record whose token totals and cost
are all zero and whose model is `"Unknown"`. -/
theorem getSessionUsage_none_iff (env : StorageEnv) (sessionId : String) :
    (getSessionUsage env sessionId = none ↔ getConversationMsgs env sessionId = []) ∧
    (getConversationMsgs env sessionId ≠ [] →
      (∀ m ∈ getConversationMsgs env sessionId,
        m.type = "assistant" → ∀ b, m.message = some b → b.usage = none) →
      ∃ u, getSessionUsage env sessionId = some u ∧ u.totalInputTokens = 0 ∧
        u.totalOutputTokens = 0 ∧ u.cacheCreationTokens = 0 ∧
        u.cacheReadTokens = 0 ∧ u.estimatedCost = 0 ∧ u.model = "Unknown") := by
  constructor
  · unfold getSessionUsage
    by_cases h : (getConversationMsgs env sessionId).length = 0
    · rw [if_pos h]
      simp only [List.length_eq_zero] at h
      exact iff_of_true rfl h
    · rw [if_neg h]
      dsimp only
      apply iff_of_false
      · simp
      · intro hnil
        exact h (by rw [hnil]; rfl)
  · intro hne hnou
    have hscan := sessScan_no_usage (getConversationMsgs env sessionId) sessScanInit hnou
    unfold getSessionUsage
    rw [if_neg (by
      intro hlen
      exact hne (List.length_eq_zero.mp hlen))]
    dsimp only
    refine ⟨_, rfl, ?_, ?_, ?_, ?_, ?_, ?_⟩
    · exact hscan.1
    · exact hscan.2.1
    · exact hscan.2.2.1
    · exact hscan.2.2.2.1
    · exact hscan.2.2.2.2.1
    · exact hscan.2.2.2.2.2

/-- Claim C10 witness: on `envU` (file `"U\n"`, one parseable `user` line,
no usage anywhere), `getSessionUsage` returns the all-zero, `"Unknown"`
record. -/
theorem getSessionUsage_none_iff_witness :
    (getSessionUsage envU "s" = none ↔ getConversationMsgs envU "s" = []) ∧
    (∃ u, getSessionUsage envU "s" = some u ∧ u.totalInputTokens = 0 ∧
      u.totalOutputTokens = 0 ∧ u.cacheCreationTokens = 0 ∧
      u.cacheReadTokens = 0 ∧ u.estimatedCost = 0 ∧ u.model = "Unknown") := by
  have h := getSessionUsage_none_iff envU "s"
  exact ⟨h.1, h.2 (by decide) (by decide)⟩

/-- Unfolding equation of `alookup` on a cons cell. -/
theorem alookup_cons {α : Type} (k' k : String) (v : α) (rest : List (String × α)) :
    alookup ((k', v) :: rest) k = if k' = k then some v else alookup rest k := rfl

/-- Unfolding equation of `mapSet` on a cons cell. -/
theorem mapSet_cons {α : Type} (k' k : String) (w v : α) (rest : List (String × α)) :
    mapSet ((k', w) :: rest) k v =
      if k' = k then (k, v) :: rest else (k', w) :: mapSet rest k v := rfl

/-- Updating one bucket of a keyed map through `get-or-default`, `bump`,
`set` adds the bump's delta to the sum of any additive projection whose
value on the default entry is zero. -/
theorem sum_mapSet_upd {M : Type} [AddCommMonoid M] (f : DateAgg → M)
    (m : List (String × DateAgg)) (k : String) (d : DateAgg) (g : DateAgg → DateAgg)
    (δ : M) (hg : ∀ x, f (g x) = f x + δ) (hd : f d = 0) :
    ((mapSet m k (g (getOrA m k d))).map (fun p => f p.2)).sum =
      (m.map (fun p => f p.2)).sum + δ := by
  induction m with
  | nil =>
    show f (g (getOrA [] k d)) + 0 = 0 + δ
    rw [show getOrA [] k d = d from rfl, hg, hd, zero_add, add_zero]
  | cons p rest ih =>
    obtain ⟨k', w⟩ := p
    by_cases hk : k' = k
    · subst hk
      rw [show getOrA ((k', w) :: rest) k' d = w by
        unfold getOrA; rw [alookup_cons, if_pos rfl]]
      rw [mapSet_cons, if_pos rfl]
      simp only [List.map_cons, List.sum_cons]
      rw [hg]
      exact add_right_comm (f w) δ _
    · rw [show getOrA ((k', w) :: rest) k d = getOrA rest k d by
        unfold getOrA; rw [alookup_cons, if_neg hk]]
      rw [mapSet_cons, if_neg hk]
      simp only [List.map_cons, List.sum_cons]
      rw [ih, add_assoc]

/-- One session-loop step of `getUsageSummary` preserves the additivity of
the `byDate` buckets against the four grand totals it guards together. -/
theorem sessionStep_additive (env : StorageEnv) (acc : SummaryAcc) (s : Session)
    (h1 : (acc.byDateMap.map (fun p => p.2.inputTokens)).sum = acc.totalInputTokens)
    (h2 : (acc.byDateMap.map (fun p => p.2.outputTokens)).sum = acc.totalOutputTokens)
    (h3 : (acc.byDateMap.map (fun p => p.2.cost)).sum = acc.totalEstimatedCost)
    (h4 : (acc.byDateMap.map (fun p => p.2.sessionCount)).sum = acc.sessionCount) :
    (((sessionStep env acc s).byDateMap.map (fun p => p.2.inputTokens)).sum =
      (sessionStep env acc s).totalInputTokens) ∧
    (((sessionStep env acc s).byDateMap.map (fun p => p.2.outputTokens)).sum =
      (sessionStep env acc s).totalOutputTokens) ∧
    (((sessionStep env acc s).byDateMap.map (fun p => p.2.cost)).sum =
      (sessionStep env acc s).totalEstimatedCost) ∧
    (((sessionStep env acc s).byDateMap.map (fun p => p.2.sessionCount)).sum =
      (sessionStep env acc s).sessionCount) := by
  unfold sessionStep
  dsimp only
  generalize (getConversationMsgs env s.id).foldl msgScanStep
    ⟨0, 0, 0, 0, 0, 0, acc.byModel, acc.totalCacheCreationTokens,
     acc.totalCacheReadTokens⟩ = sc
  by_cases hc : 0 < sc.sCnt
  · rw [if_pos hc]
    dsimp only
    refine ⟨?_, ?_, ?_, ?_⟩
    · rw [sum_mapSet_upd (fun x => x.inputTokens) acc.byDateMap
        (msToDateString s.timestamp) ⟨0, 0, 0, 0, 0, 0⟩
        (fun x => ⟨x.inputTokens + sc.sInp, x.outputTokens + sc.sOut,
          x.cacheCreationTokens + sc.sCC, x.cacheReadTokens + sc.sCR,
          x.cost + sc.sCost, x.sessionCount + 1⟩) sc.sInp (fun x => rfl) rfl]
      rw [h1]
    · rw [sum_mapSet_upd (fun x => x.outputTokens) acc.byDateMap
        (msToDateString s.timestamp) ⟨0, 0, 0, 0, 0, 0⟩
        (fun x => ⟨x.inputTokens + sc.sInp, x.outputTokens + sc.sOut,
          x.cacheCreationTokens + sc.sCC, x.cacheReadTokens + sc.sCR,
          x.cost + sc.sCost, x.sessionCount + 1⟩) sc.sOut (fun x => rfl) rfl]
      rw [h2]
    · rw [sum_mapSet_upd (fun x => x.cost) acc.byDateMap
        (msToDateString s.timestamp) ⟨0, 0, 0, 0, 0, 0⟩
        (fun x => ⟨x.inputTokens + sc.sInp, x.outputTokens + sc.sOut,
          x.cacheCreationTokens + sc.sCC, x.cacheReadTokens + sc.sCR,
          x.cost + sc.sCost, x.sessionCount + 1⟩) sc.sCost (fun x => rfl) rfl]
      rw [h3]
    · rw [sum_mapSet_upd (fun x => x.sessionCount) acc.byDateMap
        (msToDateString s.timestamp) ⟨0, 0, 0, 0, 0, 0⟩
        (fun x => ⟨x.inputTokens + sc.sInp, x.outputTokens + sc.sOut,
          x.cacheCreationTokens + sc.sCC, x.cacheReadTokens + sc.sCR,
          x.cost + sc.sCost, x.sessionCount + 1⟩) 1 (fun x => rfl) rfl]
      rw [h4]
  · rw [if_neg hc]
    exact ⟨h1, h2, h3, h4⟩

/-- The whole session loop preserves `byDate`-against-totals additivity. -/
theorem sessionFold_additive (env : StorageEnv) (sessions : List Session)
    (acc : SummaryAcc)
    (h1 : (acc.byDateMap.map (fun p => p.2.inputTokens)).sum = acc.totalInputTokens)
    (h2 : (acc.byDateMap.map (fun p => p.2.outputTokens)).sum = acc.totalOutputTokens)
    (h3 : (acc.byDateMap.map (fun p => p.2.cost)).sum = acc.totalEstimatedCost)
    (h4 : (acc.byDateMap.map (fun p => p.2.sessionCount)).sum = acc.sessionCount) :
    let r := sessions.foldl (sessionStep env) acc
    ((r.byDateMap.map (fun p => p.2.inputTokens)).sum = r.totalInputTokens) ∧
    ((r.byDateMap.map (fun p => p.2.outputTokens)).sum = r.totalOutputTokens) ∧
    ((r.byDateMap.map (fun p => p.2.cost)).sum = r.totalEstimatedCost) ∧
    ((r.byDateMap.map (fun p => p.2.sessionCount)).sum = r.sessionCount) := by
  induction sessions generalizing acc with
  | nil => exact ⟨h1, h2, h3, h4⟩
  | cons s rest ih =>
    rw [List.foldl_cons]
    obtain ⟨g1, g2, g3, g4⟩ := sessionStep_additive env acc s h1 h2 h3 h4
    exact ih (sessionStep env acc s) g1 g2 g3 g4

/-- Inserting into the date-sorted list contributes the row's value to any
additive projection's sum. -/
theorem insertByDate_sum {M : Type} [AddCommMonoid M] (f : DateRow → M)
    (x : DateRow) (l : List DateRow) :
    ((insertByDate x l).map f).sum = f x + (l.map f).sum := by
  induction l with
  | nil => simp [insertByDate]
  | cons y ys ih =>
    unfold insertByDate
    by_cases h : strLt x.date y.date = true
    · rw [if_pos h]
      simp [List.sum_cons]
    · rw [if_neg h]
      simp only [List.map_cons, List.sum_cons, ih]
      rw [add_left_comm]

/-- The final date sort permutes the rows, hence preserves every additive
projection's sum. -/
theorem sortByDate_sum {M : Type} [AddCommMonoid M] (f : DateRow → M)
    (l : List DateRow) :
    ((sortByDate l).map f).sum = (l.map f).sum := by
  suffices haux : ∀ (l acc : List DateRow),
      ((l.foldl (fun a x => insertByDate x a) acc).map f).sum =
        (l.map f).sum + (acc.map f).sum by
    unfold sortByDate
    rw [haux l []]
    simp
  intro l
  induction l with
  | nil => intro acc; simp
  | cons x xs ih =>
    intro acc
    rw [List.foldl_cons, ih]
    simp only [List.map_cons, List.sum_cons, insertByDate_sum]
    rw [add_left_comm ((List.map f xs).sum) (f x) ((List.map f acc).sum),
      ← add_assoc]

/-- Claim C2: for every environment and filter combination (project and/or
inclusive time range), the sums over `getUsageSummary`'s `byDate` buckets of
input tokens, output tokens, cost and session count each equal the
corresponding grand total of the same summary. -/
theorem usage_summary_byDate_additive (env : StorageEnv)
    (options : Option UsageOptions) :
    (((getUsageSummary env options).byDate.map (fun r => r.inputTokens)).sum =
      (getUsageSummary env options).totalInputTokens) ∧
    (((getUsageSummary env options).byDate.map (fun r => r.outputTokens)).sum =
      (getUsageSummary env options).totalOutputTokens) ∧
    (((getUsageSummary env options).byDate.map (fun r => r.cost)).sum =
      (getUsageSummary env options).totalEstimatedCost) ∧
    (((getUsageSummary env options).byDate.map (fun r => r.sessionCount)).sum =
      (getUsageSummary env options).sessionCount) := by
  unfold getUsageSummary
  dsimp only
  obtain ⟨g1, g2, g3, g4⟩ := sessionFold_additive env
    (filterSessions env.sessions options) summaryAccInit rfl rfl rfl rfl
  refine ⟨?_, ?_, ?_, ?_⟩
  · rw [sortByDate_sum, List.map_map]
    exact g1
  · rw [sortByDate_sum, List.map_map]
    exact g2
  · rw [sortByDate_sum, List.map_map]
    exact g3
  · rw [sortByDate_sum, List.map_map]
    exact g4

/-- Closed form of the date-filling loop started `n` whole days before its
end bound: it emits exactly `n + 1` day instants. -/
theorem dailyDates_closed (n : Nat) (e : Int) :
    dailyDates e (e - n * 86400000) =
      (List.range (n + 1)).map
        (fun k : Nat => e - n * 86400000 + (k : Int) * 86400000) := by
  induction n with
  | zero =>
    rw [dailyDates]
    rw [dif_pos (by push_cast; omega : e - (0 : Nat) * 86400000 ≤ e)]
    rw [dailyDates]
    rw [dif_neg (by push_cast; omega)]
    rw [show List.range 1 = [0] from rfl, List.map_cons, List.map_nil]
    norm_num
  | succ m ih =>
    rw [dailyDates]
    rw [dif_pos (by push_cast; omega : e - ((m + 1 : Nat) : Int) * 86400000 ≤ e)]
    rw [show e - ((m + 1 : Nat) : Int) * 86400000 + 86400000 = e - m * 86400000 by
      push_cast; ring]
    rw [ih]
    conv_rhs => rw [List.range_succ_eq_map]
    rw [List.map_cons, List.map_map]
    have hfun : ((fun k : Nat => e - ((m + 1 : Nat) : Int) * 86400000 +
        (k : Int) * 86400000) ∘ Nat.succ) =
        fun k : Nat => e - (m : Int) * 86400000 + (k : Int) * 86400000 := by
      funext k
      show e - ((m + 1 : Nat) : Int) * 86400000 + ((k + 1 : Nat) : Int) * 86400000 =
        e - (m : Int) * 86400000 + (k : Int) * 86400000
      push_cast
      ring
    rw [hfun]
    simp only [List.cons.injEq]
    refine ⟨by push_cast; ring, trivial⟩

/-- The daily series always has `days + 1` entries. -/
theorem getDailyUsage_len (env : StorageEnv) (now : Int) (days : Nat) :
    (getDailyUsage env now days).length = days + 1 := by
  unfold getDailyUsage
  dsimp only
  rw [List.length_map, dailyDates_closed, List.length_map, List.length_range]

/-- Claim C5 counterexample: on 2026-10-12T00:00:00Z with no data at all,
`getDailyUsage(days = 7)` returns 8 entries, not the 7 the claim states:
the loop runs from `now − 7 days` to `now` inclusive. -/
theorem getDailyUsage_seven_counterexample :
    (getDailyUsage envEmpty 1791763200000 7).length = 8 ∧
    (getDailyUsage envEmpty 1791763200000 7).length ≠ 7 := by
  have h := getDailyUsage_len envEmpty 1791763200000 7
  exact ⟨h, by rw [h]; omega⟩

/-- Claim C5 (amended): `getDailyUsage(N)` returns exactly `N + 1` entries —
one per UTC calendar day from `N` days before the call through the call
instant inclusive, in order — where each date present in the filtered
summary's `byDate` keeps its bucket and every other date appears as an
explicit zero entry. -/
theorem getDailyUsage_densified (env : StorageEnv) (now : Int) (days : Nat) :
    getDailyUsage env now days =
      (List.range (days + 1)).map (fun k : Nat =>
        let ds := msToDateString (now - days * 86400000 + (k : Int) * 86400000)
        match findLastRow (getUsageSummary env
            (some ⟨some ⟨some (now - days * 86400000), some now⟩, none⟩)).byDate ds with
        | some row => row
        | none => zeroDateRow ds) := by
  unfold getDailyUsage
  dsimp only
  rw [dailyDates_closed days now, List.map_map]
  rfl

/-! ### Line-splitting lemmas for the incremental reader -/

/-- Unfolding equation of `splitLines` on a cons cell. -/
theorem splitLines_cons (c : Char) (cs : List Char) :
    splitLines (c :: cs) =
      if c = '\n' then [] :: splitLines cs
      else
        match splitLines cs with
        | [] => [[c]]
        | l :: ls => (c :: l) :: ls := rfl

/-- A newline-free line followed by a newline terminator splits off as one
line. -/
theorem splitLines_line (l rest : List Char) (hl : '\n' ∉ l) :
    splitLines (l ++ '\n' :: rest) = l :: splitLines rest := by
  induction l with
  | nil =>
    show splitLines ('\n' :: rest) = [] :: splitLines rest
    rw [splitLines_cons, if_pos rfl]
  | cons c cs ih =>
    rw [List.mem_cons] at hl
    push_neg at hl
    show splitLines (c :: (cs ++ '\n' :: rest)) = (c :: cs) :: splitLines rest
    rw [splitLines_cons, if_neg (fun h => hl.1 h.symm)]
    rw [ih hl.2]

/-- Splitting a newline-joined block followed by a remainder yields the
block's lines followed by the remainder's lines. -/
theorem splitLines_join (ls : List (List Char)) (r : List Char)
    (hnl : ∀ l ∈ ls, '\n' ∉ l) :
    splitLines (joinNl ls ++ r) = ls ++ splitLines r := by
  induction ls with
  | nil => rfl
  | cons l ls' ih =>
    show splitLines ((l ++ '\n' :: joinNl ls') ++ r) = (l :: ls') ++ splitLines r
    rw [List.append_assoc, List.cons_append]
    rw [splitLines_line l _ (hnl l (List.mem_cons_self l ls'))]
    rw [ih (fun x hx => hnl x (List.mem_cons_of_mem l hx))]
    rfl

/-- A newline-joined block is as long as the byte count the reader charges
for its lines. -/
theorem joinNl_length (ls : List (List Char)) : (joinNl ls).length = sumBytes ls := by
  induction ls with
  | nil => rfl
  | cons l ls' ih =>
    show (l ++ '\n' :: joinNl ls').length = l.length + 1 + sumBytes ls'
    rw [List.length_append, List.length_cons, ih]
    omega

/-- Unfolding equation of `consumeLines` on a cons cell. -/
theorem consumeLines_cons (parse : List Char → Option ConversationMessage)
    (l : List Char) (ls : List (List Char)) :
    consumeLines parse (l :: ls) =
      if trimL l = [] then
        ((consumeLines parse ls).1, (l.length + 1) + (consumeLines parse ls).2)
      else
        match parse l with
        | some m =>
          ((if m.type = "user" ∨ m.type = "assistant" then [m] else []) ++
            (consumeLines parse ls).1,
           (l.length + 1) + (consumeLines parse ls).2)
        | none => ([], 0) := rfl

/-- Over lines that are each blank or parseable, the reader consumes every
line and charges exactly their byte count. -/
theorem consumeLines_all_ok (parse : List Char → Option ConversationMessage)
    (ls : List (List Char)) (hok : ∀ l ∈ ls, trimL l = [] ∨ (parse l).isSome) :
    (consumeLines parse ls).2 = sumBytes ls := by
  induction ls with
  | nil => rfl
  | cons l ls' ih =>
    have hrest := ih (fun x hx => hok x (List.mem_cons_of_mem l hx))
    rw [consumeLines_cons]
    by_cases hb : trimL l = []
    · rw [if_pos hb]
      show (l.length + 1) + (consumeLines parse ls').2 = (l.length + 1) + sumBytes ls'
      rw [hrest]
    · rw [if_neg hb]
      rcases hok l (List.mem_cons_self l ls') with h1 | h2
      · exact absurd h1 hb
      · cases hm : parse l with
        | none => rw [hm] at h2; exact absurd h2 (by simp)
        | some m =>
          show (l.length + 1) + (consumeLines parse ls').2 = (l.length + 1) + sumBytes ls'
          rw [hrest]

/-- A malformed line after a run of good lines stops the reader exactly at
the malformed line: the messages are those of the good prefix and the bytes
are the prefix's bytes; nothing from or after the malformed line counts. -/
theorem consumeLines_break (parse : List Char → Option ConversationMessage)
    (ls : List (List Char)) (mal : List Char) (ex : List (List Char))
    (hok : ∀ l ∈ ls, trimL l = [] ∨ (parse l).isSome)
    (hmal1 : trimL mal ≠ []) (hmal2 : parse mal = none) :
    consumeLines parse (ls ++ mal :: ex) = ((consumeLines parse ls).1, sumBytes ls) := by
  induction ls with
  | nil =>
    rw [List.nil_append, consumeLines_cons, if_neg hmal1, hmal2]
    rfl
  | cons l ls' ih =>
    have hokt : ∀ x ∈ ls', trimL x = [] ∨ (parse x).isSome :=
      fun x hx => hok x (List.mem_cons_of_mem l hx)
    have hrest := ih hokt
    have hbytes := consumeLines_all_ok parse ls' hokt
    rw [List.cons_append, consumeLines_cons, consumeLines_cons, hrest]
    by_cases hb : trimL l = []
    · rw [if_pos hb, if_pos hb]
      show ((consumeLines parse ls').1, (l.length + 1) + sumBytes ls') =
        (((consumeLines parse ls').1, (l.length + 1) + (consumeLines parse ls').2).1,
          (l.length + 1) + sumBytes ls')
      rw [hbytes]
    · rw [if_neg hb, if_neg hb]
      cases hm : parse l with
      | none =>
        rcases hok l (List.mem_cons_self l ls') with h1 | h2
        · exact absurd h1 hb
        · rw [hm] at h2
          exact absurd h2 (by simp)
      | some m =>
        show ((if m.type = "user" ∨ m.type = "assistant" then [m] else []) ++
            (consumeLines parse ls').1, (l.length + 1) + sumBytes ls') =
          (((if m.type = "user" ∨ m.type = "assistant" then [m] else []) ++
            (consumeLines parse ls').1,
            (l.length + 1) + (consumeLines parse ls').2).1,
            (l.length + 1) + sumBytes ls')
        rw [hbytes]

/-- Claim C3: during an incremental tail read, the first non-blank line
that fails to parse halts consumption in place: the returned offset counts
exactly the bytes of the lines before it (blank lines included), no message
from or at the malformed line is returned, the malformed line sits exactly
at the returned offset, and a retry at that offset halts at the same spot
with the offset unchanged. -/
theorem stream_malformed_halts (env : StorageEnv) (sessionId path : String)
    (content : List Char) (fromOffset : Nat) (ls : List (List Char))
    (mal rest : List Char)
    (hidx : env.fileIndex sessionId = some path)
    (hread : env.readFile path = Except.ok content)
    (hdrop : content.drop fromOffset = joinNl ls ++ mal ++ '\n' :: rest)
    (hnl : ∀ l ∈ ls, '\n' ∉ l)
    (hok : ∀ l ∈ ls, trimL l = [] ∨ (env.parse l).isSome)
    (hmalnl : '\n' ∉ mal)
    (hmal1 : trimL mal ≠ [])
    (hmal2 : env.parse mal = none) :
    getConversationStream env sessionId fromOffset =
      ⟨(consumeLines env.parse ls).1, fromOffset + sumBytes ls⟩ ∧
    content.drop (fromOffset + sumBytes ls) = mal ++ '\n' :: rest ∧
    getConversationStream env sessionId (fromOffset + sumBytes ls) =
      ⟨[], fromOffset + sumBytes ls⟩ := by
  have hmalne : mal ≠ [] := by
    intro h
    exact hmal1 (by rw [h]; rfl)
  have hlen1 : fromOffset ≤ content.length := by
    by_contra hcon
    push_neg at hcon
    have : content.drop fromOffset = [] := List.drop_eq_nil_of_le (le_of_lt hcon)
    rw [this] at hdrop
    have : (0 : Nat) = (joinNl ls ++ mal ++ '\n' :: rest).length := by rw [← hdrop]; rfl
    rw [List.length_append, List.length_append, List.length_cons] at this
    omega
  have hlen2 : content.length - fromOffset =
      sumBytes ls + (mal.length + (rest.length + 1)) := by
    have := congrArg List.length hdrop
    rw [List.length_drop, List.length_append, List.length_append,
      List.length_cons, joinNl_length] at this
    omega
  have hmallen : 1 ≤ mal.length := by
    cases mal with
    | nil => exact absurd rfl hmalne
    | cons c cs => simp
  have hsplit : splitLines (content.drop fromOffset) = ls ++ mal :: splitLines rest := by
    rw [hdrop, List.append_assoc]
    rw [splitLines_join ls (mal ++ '\n' :: rest) hnl]
    rw [splitLines_line mal rest hmalnl]
  have hconsume : consumeLines env.parse (splitLines (content.drop fromOffset)) =
      ((consumeLines env.parse ls).1, sumBytes ls) := by
    rw [hsplit]
    exact consumeLines_break env.parse ls mal (splitLines rest) hok hmal1 hmal2
  have hdrop2 : content.drop (fromOffset + sumBytes ls) = mal ++ '\n' :: rest := by
    rw [← List.drop_drop, hdrop, List.append_assoc, ← joinNl_length]
    exact List.drop_left (joinNl ls) (mal ++ '\n' :: rest)
  refine ⟨?_, hdrop2, ?_⟩
  · unfold getConversationStream
    rw [hidx]
    dsimp only
    rw [hread]
    dsimp only
    unfold streamFromContent
    rw [if_neg (by omega)]
    dsimp only
    rw [hconsume]
    rw [if_neg (by omega)]
  · unfold getConversationStream
    rw [hidx]
    dsimp only
    rw [hread]
    dsimp only
    unfold streamFromContent
    rw [if_neg (by omega)]
    dsimp only
    rw [hdrop2]
    rw [show splitLines (mal ++ '\n' :: rest) = mal :: splitLines rest from
      splitLines_line mal rest hmalnl]
    rw [consumeLines_cons, if_neg hmal1, hmal2]
    dsimp only
    rw [if_neg (by omega)]
    rfl

/-- Claim C3 witness: on the file `"U\nX\nU\n"` (good line, malformed line,
good line), the first read from offset 0 returns the one good message and
offset 2, the malformed line `X` sits at offset 2, and the retry at offset
2 returns nothing and offset 2 again. -/
theorem stream_malformed_halts_witness :
    getConversationStream envMal "s" 0 = ⟨[userMsg], 2⟩ ∧
    "U\nX\nU\n".data.drop 2 = ['X'] ++ '\n' :: "U\n".data ∧
    getConversationStream envMal "s" 2 = ⟨[], 2⟩ := by
  have h := stream_malformed_halts envMal "s" "p" "U\nX\nU\n".data 0
    [['U']] ['X'] "U\n".data rfl rfl (by decide) (by decide) (by decide)
    (by decide) (by decide) (by decide)
  refine ⟨?_, h.2.1, h.2.2⟩
  rw [h.1]
  decide

/-! ### Trim algebra (JS `trim` against the two line-splitting functions) -/

/-- `rtrimL` coincides with Mathlib's `rdropWhile`. -/
theorem rtrimL_eq (l : List Char) : rtrimL l = l.rdropWhile isWS := rfl

/-- A whitespace head prepended to a list with a non-blank tail survives into
the right-trim. -/
theorem rtrim_cons_of_ne (ch : Char) (l : List Char)
    (h : rtrimL l ≠ []) : rtrimL (ch :: l) = ch :: rtrimL l := by
  have hne : l.reverse.dropWhile isWS ≠ [] := by
    intro hx
    apply h
    unfold rtrimL
    rw [hx]
    rfl
  unfold rtrimL
  rw [List.reverse_cons, List.dropWhile_append]
  rw [if_neg (by simpa using hne)]
  rw [List.reverse_append]
  rfl

/-- A leading whitespace character does not change the trimmed line. -/
theorem trim_cons_ws (ch : Char) (l : List Char) (hc : isWS ch = true) :
    trimL (ch :: l) = trimL l := by
  by_cases h : rtrimL l = []
  · have hall : ∀ x ∈ l, isWS x = true := by
      rw [rtrimL_eq] at h
      exact fun x hx => List.rdropWhile_eq_nil_iff.mp h x hx
    have h2 : rtrimL (ch :: l) = [] := by
      rw [rtrimL_eq]
      apply List.rdropWhile_eq_nil_iff.mpr
      intro x hx
      rcases List.mem_cons.mp hx with h1 | h1
      · rw [h1]; exact hc
      · exact hall x h1
    unfold trimL
    rw [h, h2]
  · unfold trimL
    rw [rtrim_cons_of_ne ch l h]
    unfold ltrimL
    rw [List.dropWhile_cons_of_pos hc]

/-- A trailing whitespace character does not change the trimmed line. -/
theorem trim_concat_ws (ch : Char) (l : List Char) (hc : isWS ch = true) :
    trimL (l ++ [ch]) = trimL l := by
  unfold trimL
  rw [rtrimL_eq, rtrimL_eq, List.rdropWhile_concat_pos isWS l ch hc]

/-- A whitespace-only line trims to nothing. -/
theorem trim_eq_nil_of_all_ws (l : List Char) (h : ∀ x ∈ l, isWS x = true) :
    trimL l = [] := by
  unfold trimL
  rw [rtrimL_eq, List.rdropWhile_eq_nil_iff.mpr h]
  rfl

/-- A line that trims to nothing is whitespace-only. -/
theorem all_ws_of_trim_eq_nil (l : List Char) (h : trimL l = []) :
    ∀ x ∈ l, isWS x = true := by
  unfold trimL ltrimL at h
  have h1 : ∀ x ∈ rtrimL l, isWS x = true := List.dropWhile_eq_nil_iff.mp h
  have h2 : rtrimL l = [] := by
    rw [rtrimL_eq] at h1 ⊢
    have h3 := List.rdropWhile_eq_nil_iff.mpr h1
    rwa [List.rdropWhile_idempotent] at h3
  rw [rtrimL_eq] at h2
  exact fun x hx => List.rdropWhile_eq_nil_iff.mp h2 x hx

/-! ### `splitOnNl` structure lemmas -/

/-- Unfolding equation of `splitOnNl` on a cons cell. -/
theorem splitOnNl_cons (c : Char) (cs : List Char) :
    splitOnNl (c :: cs) =
      if c = '\n' then [] :: splitOnNl cs
      else
        match splitOnNl cs with
        | [] => [[c]]
        | l :: ls => (c :: l) :: ls := rfl

/-- `split("\n")` always yields at least one segment. -/
theorem splitOnNl_ne_nil (c : List Char) : splitOnNl c ≠ [] := by
  cases c with
  | nil => simp [splitOnNl]
  | cons ch cs =>
    rw [splitOnNl_cons]
    by_cases h : ch = '\n'
    · rw [if_pos h]
      simp
    · rw [if_neg h]
      cases splitOnNl cs <;> simp

/-- Appending a newline appends one empty segment. -/
theorem splitOnNl_concat_nl (cs : List Char) :
    splitOnNl (cs ++ ['\n']) = splitOnNl cs ++ [[]] := by
  induction cs with
  | nil => rfl
  | cons c cs' ih =>
    rw [List.cons_append, splitOnNl_cons, splitOnNl_cons]
    by_cases h : c = '\n'
    · rw [if_pos h, if_pos h, ih]
      rfl
    · rw [if_neg h, if_neg h, ih]
      cases hs : splitOnNl cs' with
      | nil => exact absurd hs (splitOnNl_ne_nil cs')
      | cons l ls => rfl

/-- Appending a non-newline character extends the last segment. -/
theorem splitOnNl_concat_ch (cs : List Char) (ch : Char) (h : ch ≠ '\n') :
    splitOnNl (cs ++ [ch]) = modLast (fun l => l ++ [ch]) (splitOnNl cs) := by
  induction cs with
  | nil =>
    rw [List.nil_append, splitOnNl_cons, if_neg h]
    rfl
  | cons c cs' ih =>
    rw [List.cons_append, splitOnNl_cons, splitOnNl_cons]
    by_cases hc : c = '\n'
    · rw [if_pos hc, if_pos hc, ih]
      cases hs : splitOnNl cs' with
      | nil => exact absurd hs (splitOnNl_ne_nil cs')
      | cons l ls => rfl
    · rw [if_neg hc, if_neg hc, ih]
      cases hs : splitOnNl cs' with
      | nil => exact absurd hs (splitOnNl_ne_nil cs')
      | cons l ls =>
        cases ls with
        | nil => rfl
        | cons y t => rfl

/-- The two splitters agree except for one possible trailing empty segment
(the trailing newline / empty file cases). -/
theorem splitOnNl_splitLines (c : List Char) :
    splitOnNl c = splitLines c ∨ splitOnNl c = splitLines c ++ [[]] := by
  induction c with
  | nil =>
    right
    rfl
  | cons ch cs ih =>
    rw [splitOnNl_cons, splitLines_cons]
    by_cases h : ch = '\n'
    · rw [if_pos h, if_pos h]
      rcases ih with h1 | h1
      · left
        rw [h1]
      · right
        rw [h1]
        rfl
    · rw [if_neg h, if_neg h]
      rcases ih with h1 | h1
      · left
        cases hs : splitLines cs with
        | nil =>
          rw [hs] at h1
          exact absurd h1 (splitOnNl_ne_nil cs)
        | cons l ls => rw [h1, hs]
      · cases hs : splitLines cs with
        | nil =>
          left
          rw [h1, hs]
          rfl
        | cons l ls =>
          right
          rw [h1, hs]
          rfl

/-- Byte count of the JS split of a string: every segment costs its length
plus one, totalling the string length plus one. -/
theorem sumBytes_splitOnNl (c : List Char) :
    sumBytes (splitOnNl c) = c.length + 1 := by
  induction c with
  | nil => rfl
  | cons ch cs ih =>
    rw [splitOnNl_cons]
    by_cases h : ch = '\n'
    · rw [if_pos h]
      show (0 + 1) + sumBytes (splitOnNl cs) = (ch :: cs).length + 1
      rw [ih, List.length_cons]
      omega
    · rw [if_neg h]
      cases hs : splitOnNl cs with
      | nil => exact absurd hs (splitOnNl_ne_nil cs)
      | cons l ls =>
        show ((ch :: l).length + 1) + sumBytes ls = (ch :: cs).length + 1
        have h2 : sumBytes (l :: ls) = cs.length + 1 := by
          rw [← hs]
          exact ih
        show (l.length + 1 + 1) + sumBytes ls = cs.length + 1 + 1
        have h3 : (l.length + 1) + sumBytes ls = cs.length + 1 := h2
        omega

theorem sumBytes_append (a b : List (List Char)) :
    sumBytes (a ++ b) = sumBytes a + sumBytes b := by
  induction a with
  | nil => exact (Nat.zero_add _).symm
  | cons l ls ih =>
    show (l.length + 1) + sumBytes (ls ++ b) = ((l.length + 1) + sumBytes ls) + sumBytes b
    rw [ih]
    omega

/-- The reader's byte count over the readline split of a whole file is the
file size, or the file size plus one when the file does not end in a
newline. -/
theorem sumBytes_splitLines_bounds (c : List Char) :
    c.length ≤ sumBytes (splitLines c) ∧ sumBytes (splitLines c) ≤ c.length + 1 := by
  rcases splitOnNl_splitLines c with h | h
  · rw [← h, sumBytes_splitOnNl]
    omega
  · have h2 := sumBytes_splitOnNl c
    rw [h, sumBytes_append] at h2
    have h3 : sumBytes [([] : List Char)] = 1 := rfl
    omega

/-! ### Parse-level invariance of the two splitters under `trim` -/

/-- Dropping a trailing empty segment changes nothing for an extractor that
rejects the empty line. -/
theorem filterMap_concat_nil (g : List Char → Option ConversationMessage)
    (h0 : g [] = none) (ls : List (List Char)) :
    ((ls ++ [[]]).filterMap g) = ls.filterMap g := by
  rw [List.filterMap_append]
  simp [h0]

/-- Extending the last segment by a character the extractor ignores changes
nothing. -/
theorem filterMap_modLast (g : List Char → Option ConversationMessage) (ch : Char)
    (hg : ∀ l, g (l ++ [ch]) = g l) (s : List (List Char)) :
    ((modLast (fun l => l ++ [ch]) s).filterMap g) = s.filterMap g := by
  induction s with
  | nil => rfl
  | cons l ls ih =>
    cases ls with
    | nil =>
      show ([l ++ [ch]].filterMap g) = [l].filterMap g
      rw [List.filterMap_cons, List.filterMap_cons, hg l]
    | cons y t =>
      show ((l :: modLast (fun l => l ++ [ch]) (y :: t)).filterMap g) =
        (l :: y :: t).filterMap g
      rw [List.filterMap_cons, List.filterMap_cons, ih]

/-- Left-trimming the content does not change what an extractor that is
insensitive to leading whitespace and rejects blank lines sees in the JS
split. -/
theorem filterMap_splitOnNl_ltrim (g : List Char → Option ConversationMessage)
    (hcons : ∀ ch l, isWS ch = true → g (ch :: l) = g l)
    (h0 : g [] = none) (c : List Char) :
    ((splitOnNl (ltrimL c)).filterMap g) = (splitOnNl c).filterMap g := by
  induction c with
  | nil => rfl
  | cons ch cs ih =>
    by_cases hws : isWS ch = true
    · have hl : ltrimL (ch :: cs) = ltrimL cs := by
        unfold ltrimL
        rw [List.dropWhile_cons_of_pos hws]
      rw [hl, ih]
      by_cases hnl : ch = '\n'
      · rw [splitOnNl_cons, if_pos hnl, List.filterMap_cons, h0]
      · rw [splitOnNl_cons, if_neg hnl]
        cases hs : splitOnNl cs with
        | nil => exact absurd hs (splitOnNl_ne_nil cs)
        | cons l ls =>
          rw [List.filterMap_cons, List.filterMap_cons, hcons ch l hws]
    · have hl : ltrimL (ch :: cs) = ch :: cs := by
        unfold ltrimL
        rw [List.dropWhile_cons_of_neg hws]
      rw [hl]

/-- Right-trimming the content does not change what an extractor that is
insensitive to trailing whitespace and rejects blank lines sees in the JS
split. -/
theorem filterMap_splitOnNl_rtrim (g : List Char → Option ConversationMessage)
    (hconcat : ∀ ch l, isWS ch = true → g (l ++ [ch]) = g l)
    (h0 : g [] = none) (c : List Char) :
    ((splitOnNl (rtrimL c)).filterMap g) = (splitOnNl c).filterMap g := by
  induction c using List.reverseRecOn with
  | nil => rfl
  | append_singleton cs ch ih =>
    by_cases hws : isWS ch = true
    · have hr : rtrimL (cs ++ [ch]) = rtrimL cs := by
        rw [rtrimL_eq, rtrimL_eq, List.rdropWhile_concat_pos isWS cs ch hws]
      rw [hr, ih]
      by_cases hnl : ch = '\n'
      · subst hnl
        rw [splitOnNl_concat_nl, filterMap_concat_nil g h0]
      · rw [splitOnNl_concat_ch cs ch hnl,
          filterMap_modLast g ch (fun l => hconcat ch l hws) (splitOnNl cs)]
    · have hr : rtrimL (cs ++ [ch]) = cs ++ [ch] := by
        rw [rtrimL_eq]
        exact List.rdropWhile_concat_neg isWS cs ch (by simpa using hws)
      rw [hr]

/-- The JS split after a full trim and the readline split of the raw
content agree for any extractor insensitive to surrounding whitespace that
rejects blank lines. -/
theorem filterMap_trim_splitLines (g : List Char → Option ConversationMessage)
    (hcons : ∀ ch l, isWS ch = true → g (ch :: l) = g l)
    (hconcat : ∀ ch l, isWS ch = true → g (l ++ [ch]) = g l)
    (h0 : g [] = none) (c : List Char) :
    ((splitOnNl (trimL c)).filterMap g) = (splitLines c).filterMap g := by
  unfold trimL
  rw [filterMap_splitOnNl_ltrim g hcons h0 (rtrimL c)]
  rw [filterMap_splitOnNl_rtrim g hconcat h0 c]
  rcases splitOnNl_splitLines c with h | h
  · rw [h]
  · rw [h, filterMap_concat_nil g h0]

/-! ### Chained incremental reads against the full read (claim C1) -/

theorem isUA_iff (m : ConversationMessage) :
    isUA m = true ↔ (m.type = "user" ∨ m.type = "assistant") := by
  unfold isUA
  rw [Bool.or_eq_true, beq_iff_eq, beq_iff_eq]

/-- The full-read line loop, restricted to `user`/`assistant` messages,
extracts exactly the per-line `user`/`assistant` projection in file order
(prepended summaries are filtered away). -/
theorem conv_foldl_filter (parse : List Char → Option ConversationMessage)
    (ls : List (List Char)) (acc : List ConversationMessage) :
    ((ls.foldl (convStep parse) acc).filter isUA) =
      acc.filter isUA ++ ls.filterMap (uaParse parse) := by
  induction ls generalizing acc with
  | nil => simp
  | cons l ls' ih =>
    rw [List.foldl_cons, ih, List.filterMap_cons]
    unfold convStep uaParse
    cases hp : parse l with
    | none => rfl
    | some m =>
      dsimp only
      by_cases hua : m.type = "user" ∨ m.type = "assistant"
      · rw [if_pos hua, if_pos ((isUA_iff m).mpr hua)]
        rw [List.filter_append]
        rw [show List.filter isUA [m] = [m] by
          rw [List.filter_cons_of_pos ((isUA_iff m).mpr hua)]
          rfl]
        rw [List.append_assoc]
        rfl
      · have hnua : ¬(isUA m = true) := fun hx => hua ((isUA_iff m).mp hx)
        rw [if_neg hua, if_neg hnua]
        by_cases hsum : m.type = "summary"
        · rw [if_pos hsum]
          rw [List.filter_cons_of_neg hnua]
        · rw [if_neg hsum]

/-- On a file whose every line parses, one incremental read collects exactly
the per-line `user`/`assistant` projection and consumes every byte. -/
theorem consumeLines_all_parse (parse : List Char → Option ConversationMessage)
    (ls : List (List Char))
    (hall : ∀ l ∈ ls, (parse l).isSome)
    (hblank : ∀ l, (∀ c ∈ l, isWS c = true) → parse l = none) :
    consumeLines parse ls = (ls.filterMap (uaParse parse), sumBytes ls) := by
  induction ls with
  | nil => rfl
  | cons l ls' ih =>
    have hl := hall l (List.mem_cons_self l ls')
    have hnb : ¬(trimL l = []) := by
      intro h
      rw [hblank l (all_ws_of_trim_eq_nil l h)] at hl
      exact absurd hl (by simp)
    rw [consumeLines_cons, if_neg hnb,
      ih (fun x hx => hall x (List.mem_cons_of_mem l hx)), List.filterMap_cons]
    unfold uaParse
    cases hp : parse l with
    | none =>
      rw [hp] at hl
      exact absurd hl (by simp)
    | some m =>
      dsimp only
      by_cases hua : m.type = "user" ∨ m.type = "assistant"
      · rw [if_pos hua, if_pos ((isUA_iff m).mpr hua)]
        rfl
      · rw [if_neg hua, if_neg (fun hx => hua ((isUA_iff m).mp hx))]
        rfl

/-- Dropping the `filter(Boolean)` step changes nothing for an extractor
that rejects the empty line. -/
theorem filterMap_filter_ne_nil (g : List Char → Option ConversationMessage)
    (h0 : g [] = none) (ls : List (List Char)) :
    ((ls.filter (fun l => l ≠ [])).filterMap g) = ls.filterMap g := by
  induction ls with
  | nil => rfl
  | cons l ls' ih =>
    by_cases h : l = []
    · subst h
      rw [List.filter_cons_of_neg (by simp), List.filterMap_cons, h0, ih]
    · rw [List.filter_cons_of_pos (by simpa using h), List.filterMap_cons,
        List.filterMap_cons, ih]

/-- Unfolding equation of `chainStream` for one more call. -/
theorem chainStream_succ (env : StorageEnv) (sessionId : String) (k : Nat) :
    chainStream env sessionId (k + 1) =
      ((chainStream env sessionId k).1 ++
        (getConversationStream env sessionId (chainStream env sessionId k).2).messages,
       (getConversationStream env sessionId (chainStream env sessionId k).2).nextOffset) :=
  rfl

/-- Claim C1 (amended): for a resolvable session whose log parses on every
line (under the whitespace-insensitivity of `JSON.parse`), reading from
offset 0 and then repeatedly from each returned `nextOffset` and
concatenating yields exactly the `user`/`assistant` messages of the full
read — the full read's prepended summaries are the only difference. -/
theorem chained_stream_eq_full_read_ua (env : StorageEnv) (sessionId path : String)
    (content : List Char) (k : Nat)
    (hidx : env.fileIndex sessionId = some path)
    (hread : env.readFile path = Except.ok content)
    (hcons : ∀ ch l, isWS ch = true → env.parse (ch :: l) = env.parse l)
    (hconcat : ∀ ch l, isWS ch = true → env.parse (l ++ [ch]) = env.parse l)
    (hblank : ∀ l, (∀ c ∈ l, isWS c = true) → env.parse l = none)
    (hwf : ∀ l ∈ splitLines content, (env.parse l).isSome)
    (hk : 1 ≤ k) :
    (chainStream env sessionId k).1 =
      (getConversationMsgs env sessionId).filter isUA := by
  have h0 : env.parse [] = none := hblank [] (by simp)
  have hg_cons : ∀ ch l, isWS ch = true →
      uaParse env.parse (ch :: l) = uaParse env.parse l := by
    intro ch l h
    unfold uaParse
    rw [hcons ch l h]
  have hg_concat : ∀ ch l, isWS ch = true →
      uaParse env.parse (l ++ [ch]) = uaParse env.parse l := by
    intro ch l h
    unfold uaParse
    rw [hconcat ch l h]
  have hg0 : uaParse env.parse [] = none := by
    unfold uaParse
    rw [h0]
  have hRHS : (getConversationMsgs env sessionId).filter isUA =
      (splitLines content).filterMap (uaParse env.parse) := by
    unfold getConversationMsgs
    rw [hidx]
    dsimp only
    rw [hread]
    dsimp only
    unfold conversationFromContent conversationOfLines
    rw [conv_foldl_filter env.parse _ []]
    rw [show List.filter isUA [] = [] from rfl, List.nil_append]
    rw [filterMap_filter_ne_nil (uaParse env.parse) hg0]
    exact filterMap_trim_splitLines (uaParse env.parse) hg_cons hg_concat hg0 content
  by_cases hc0 : content = []
  · subst hc0
    have hstream : ∀ off, getConversationStream env sessionId off = ⟨[], off⟩ := by
      intro off
      unfold getConversationStream
      rw [hidx]
      dsimp only
      rw [hread]
      dsimp only
      unfold streamFromContent
      rw [if_pos (by simp)]
    have hchain : ∀ j, chainStream env sessionId j = ([], 0) := by
      intro j
      induction j with
      | zero => rfl
      | succ i ihj =>
        rw [chainStream_succ, ihj, hstream 0]
        rfl
    rw [hchain k, hRHS]
    rfl
  · have hcl : 0 < content.length := by
      cases content with
      | nil => exact absurd rfl hc0
      | cons a b => simp
    have hstream0 : getConversationStream env sessionId 0 =
        ⟨(splitLines content).filterMap (uaParse env.parse), content.length⟩ := by
      unfold getConversationStream
      rw [hidx]
      dsimp only
      rw [hread]
      dsimp only
      unfold streamFromContent
      rw [if_neg (by omega)]
      dsimp only
      rw [List.drop_zero]
      rw [consumeLines_all_parse env.parse (splitLines content) hwf hblank]
      dsimp only
      rcases sumBytes_splitLines_bounds content with ⟨hb1, hb2⟩
      by_cases hclamp : content.length < 0 + sumBytes (splitLines content)
      · rw [if_pos hclamp]
      · rw [if_neg hclamp]
        have heq : 0 + sumBytes (splitLines content) = content.length := by omega
        rw [heq]
    have hstream_eof : getConversationStream env sessionId content.length =
        ⟨[], content.length⟩ := by
      unfold getConversationStream
      rw [hidx]
      dsimp only
      rw [hread]
      dsimp only
      unfold streamFromContent
      rw [if_pos (le_refl _)]
    have hchain : ∀ j, 1 ≤ j → chainStream env sessionId j =
        ((splitLines content).filterMap (uaParse env.parse), content.length) := by
      intro j hj
      induction j with
      | zero => omega
      | succ i ihj =>
        by_cases hi : 1 ≤ i
        · rw [chainStream_succ, ihj hi, hstream_eof]
          rw [List.append_nil]
        · have hi0 : i = 0 := by omega
          subst hi0
          rw [chainStream_succ,
            show chainStream env sessionId 0 = (([] : List ConversationMessage), 0) from rfl,
            hstream0, List.nil_append]
    rw [hchain k hk, hRHS]

/-- Claim C1 counterexample: for the session whose file is the single
well-formed summary line `"S\n"`, chaining incremental reads from offset 0
concatenates to `[]`, while the full read returns the summary message — the
two reads differ on a file with only well-formed JSON lines. -/
theorem chained_stream_ne_full_read_counterexample :
    (chainStream envS "s" 2).1 ≠ getConversationMsgs envS "s" := by
  decide

/-- Claim C1 (amended) witness: on the session whose file is the single
user line `"U\n"`, one chained read equals the full read's `user`/
`assistant` messages. -/
theorem chained_stream_eq_full_read_ua_witness :
    (chainStream envU "s" 1).1 = (getConversationMsgs envU "s").filter isUA := by
  refine chained_stream_eq_full_read_ua envU "s" "p" "U\n".data 1 rfl rfl ?_ ?_ ?_
    (by decide) (by omega)
  · intro ch l h
    show parseU (ch :: l) = parseU l
    unfold parseU
    rw [trim_cons_ws ch l h]
  · intro ch l h
    show parseU (l ++ [ch]) = parseU l
    unfold parseU
    rw [trim_concat_ws ch l h]
  · intro l h
    show parseU l = none
    unfold parseU
    rw [trim_eq_nil_of_all_ws l h]
    rfl

end ClaudeRun
